import Mathlib

/-!
# Verification of the sparse-image reader (`sparse_img.py`)

A shallow embedding of `tools/releasetools/sparse_img.py`.  The underlying
image file is modelled as a `List Nat` of byte values; the stateful Python
file object (seek/read) becomes explicit offset arithmetic on that list.
Python integers are `Nat`/`Int` (with `Int` where the source can go
negative, e.g. `total_sz - 12`); fallible code returns `Except`/`Option`.

The external `rangelib.RangeSet` dependency is not part of the sources;
following the specification it is modelled by its block-set semantics
(a `Finset Nat` of block indices, with `size`/`intersect`/`subtract` as
`card`/`∩`/`\`), and a constructed `RangeSet(data)` by the union of the
half-open intervals of its pair list.
-/

namespace SparseImg

/-- `f.read` at a given position: the bytes of the file from `pos`,
truncated at end of file (Python `read` returns what is available). -/
def fread (f : List Nat) (pos n : Nat) : List Nat :=
  (f.drop pos).take n

/-- A read that `struct.unpack` accepts: exactly `n` bytes must be
available, otherwise the unpack raises (modelled as `none`). -/
def readExact (f : List Nat) (pos n : Nat) : Option (List Nat) :=
  if pos + n ≤ f.length then some (fread f pos n) else none

/-- Little-endian value of a byte list (least significant byte first). -/
def leNat : List Nat → Nat
  | [] => 0
  | b :: rest => b + 256 * leNat rest

/-- `struct` field `<H` (little-endian u16) at the start of a byte list. -/
def u16le (l : List Nat) : Nat := leNat (l.take 2)

/-- `struct` field `<I` (little-endian u32) at the start of a byte list. -/
def u32le (l : List Nat) : Nat := leNat (l.take 4)

/-- Python `bytes * n`: the byte string repeated `n` times. -/
def bytesRepeat (b : List Nat) (n : Nat) : List Nat :=
  (List.replicate n b).flatten

/-- One entry of `self.offset_map`: the 4-tuple
`(start block, block count, file position or None, fill bytes or None)`. -/
structure Chunk where
  start : Nat
  count : Nat
  filepos : Option Nat
  fill : Option (List Nat)
  deriving Repr, DecidableEq

/-- The distinct failures of `SparseImage.__init__`.  Each `ValueError`
of the source becomes its own constructor carrying the actual value the
message reports; `structError` is the separate `struct.error` raised by
`struct.unpack` on a short read. -/
inductive PError where
  | structError : PError
  | badMagic (actual : Nat) : PError
  | badVersion (major minor : Nat) : PError
  | badFileHdrSz (actual : Nat) : PError
  | badChunkHdrSz (actual : Nat) : PError
  | rawSizeMismatch (dataSz : Int) (expected : Nat) : PError
  | dontCareNonzero (dataSz : Int) : PError
  | crcUnsupported : PError
  | unknownChunk (chunkType : Nat) : PError
  deriving Repr, DecidableEq

/-- The chunk-table loop of `SparseImage.__init__` (`for i in
range(total_chunks)`), translated chunk by chunk.  `n` counts remaining
chunks, `fpos` is the file position, `pos` the block-position cursor.
Returns the accumulated `care_data` (as `(pos, pos + chunk_sz)` pairs)
and `offset_map` entries, in order. -/
def parseChunks (f : List Nat) (blkSz : Nat) :
    Nat → Nat → Nat → Except PError (List (Nat × Nat) × List Chunk)
  | 0, _, _ => .ok ([], [])
  | n + 1, fpos, pos =>
    match readExact f fpos 12 with
    | none => .error .structError
    | some hdr =>
      let chunkType := u16le (hdr.take 2)
      let chunkSz := u32le ((hdr.drop 4).take 4)
      let totalSz := u32le ((hdr.drop 8).take 4)
      let dataSz : Int := (totalSz : Int) - 12
      if chunkType = 0xCAC1 then
        if dataSz ≠ ((chunkSz * blkSz : Nat) : Int) then
          .error (.rawSizeMismatch dataSz (chunkSz * blkSz))
        else
          match parseChunks f blkSz n (fpos + 12 + dataSz.toNat) (pos + chunkSz) with
          | .error e => .error e
          | .ok (care, chunks) =>
            .ok ((pos, pos + chunkSz) :: care,
                 ⟨pos, chunkSz, some (fpos + 12), none⟩ :: chunks)
      else if chunkType = 0xCAC2 then
        let fillData := fread f (fpos + 12) 4
        match parseChunks f blkSz n (fpos + 12 + fillData.length) (pos + chunkSz) with
        | .error e => .error e
        | .ok (care, chunks) =>
          .ok ((pos, pos + chunkSz) :: care,
               ⟨pos, chunkSz, none, some fillData⟩ :: chunks)
      else if chunkType = 0xCAC3 then
        if dataSz ≠ 0 then .error (.dontCareNonzero dataSz)
        else parseChunks f blkSz n (fpos + 12) (pos + chunkSz)
      else if chunkType = 0xCAC4 then .error .crcUnsupported
      else .error (.unknownChunk chunkType)

/-- The immutable part of a `SparseImage` after `__init__`:
`blocksize`, `total_blocks`, the `care_data` pair list (from which
`care_map` is built) and the `offset_map` chunk index. -/
structure SparseImage where
  blocksize : Nat
  total_blocks : Nat
  care_pairs : List (Nat × Nat)
  offset_map : List Chunk
  deriving Repr, DecidableEq

/-- `SparseImage.__init__` on the bytes of the image file: header
validation (`<I4H4I`, 28 bytes) followed by the chunk-table loop. -/
def parseSparseImage (f : List Nat) : Except PError SparseImage :=
  match readExact f 0 28 with
  | none => .error .structError
  | some hdr =>
    let magic := u32le (hdr.take 4)
    let major := u16le ((hdr.drop 4).take 2)
    let minor := u16le ((hdr.drop 6).take 2)
    let fileHdrSz := u16le ((hdr.drop 8).take 2)
    let chunkHdrSz := u16le ((hdr.drop 10).take 2)
    let blkSz := u32le ((hdr.drop 12).take 4)
    let totalBlks := u32le ((hdr.drop 16).take 4)
    let totalChunks := u32le ((hdr.drop 20).take 4)
    if magic ≠ 0xED26FF3A then .error (.badMagic magic)
    else if major ≠ 1 ∨ minor ≠ 0 then .error (.badVersion major minor)
    else if fileHdrSz ≠ 28 then .error (.badFileHdrSz fileHdrSz)
    else if chunkHdrSz ≠ 12 then .error (.badChunkHdrSz chunkHdrSz)
    else
      match parseChunks f blkSz totalChunks 28 0 with
      | .error e => .error e
      | .ok (care, chunks) => .ok ⟨blkSz, totalBlks, care, chunks⟩

/-- `self.offset_index = [i[0] for i in offset_map]`. -/
def offsetIndex (img : SparseImage) : List Nat :=
  img.offset_map.map (·.start)

/-- Modelled from the spec: the block set denoted by
`RangeSet(care_data)` — the union of the half-open intervals of the
accumulated pair list. -/
def unionPairs (ps : List (Nat × Nat)) : Finset Nat :=
  ps.foldr (fun p acc => Finset.Ico p.1 p.2 ∪ acc) ∅

/-- The block set of `self.care_map`. -/
def careFinset (img : SparseImage) : Finset Nat :=
  unionPairs img.care_pairs

/-- The union of the block intervals of a list of chunk descriptors. -/
def unionChunks (l : List Chunk) : Finset Nat :=
  l.foldr (fun c acc => Finset.Ico c.start (c.start + c.count) ∪ acc) ∅

/-- `bisect.bisect_right(l, x)` for a list sorted in non-decreasing
order: the insertion point after any entries equal to `x`, i.e. the
number of elements `≤ x`. -/
def bisectRight (l : List Nat) (x : Nat) : Nat :=
  l.countP (fun y => decide (y ≤ x))

/-- Python list indexing `l[i]`: a negative index counts from the end;
`none` is an `IndexError`. -/
def pyIdx {α : Type} (l : List α) (i : Int) : Option α :=
  if 0 ≤ i then l[i.toNat]?
  else if 0 ≤ (l.length : Int) + i then l[((l.length : Int) + i).toNat]? else none

/-- Python `f.seek(p)` followed by `f.read(n)` with possibly negative
arguments: a negative seek position raises (`none`); a negative read
count reads to end of file. -/
def freadPy (f : List Nat) (pos n : Int) : Option (List Nat) :=
  if pos < 0 then none
  else some (if n < 0 then f.drop pos.toNat else (f.drop pos.toNat).take n.toNat)

/-- The `while to_read > 0` loop of `_GetRangeData`, walking the chunk
descriptors that follow the first one (`idx += 1` becomes structural
recursion over the remaining suffix of `offset_map`; running past the
end of the list is the `IndexError`, `none`). -/
def grdWhile (bs : Nat) (f : List Nat) : List Chunk → Int → Option (List (List Nat))
  | [], toRead => if toRead ≤ 0 then some [] else none
  | c :: rest, toRead =>
    if toRead ≤ 0 then some []
    else
      let thisRead : Int := min (c.count : Int) toRead
      let buf : List Nat :=
        match c.filepos with
        | some p => fread f p (thisRead * (bs : Int)).toNat
        | none => bytesRepeat (c.fill.getD []) (thisRead * ((bs >>> 2 : Nat) : Int)).toNat
      (grdWhile bs f rest (toRead - thisRead)).map (buf :: ·)

/-- The body of `_GetRangeData` for a single requested interval
`[s, e)`: binary search for the containing descriptor, the first
(possibly partial) read, then the `while` loop over later chunks. -/
def grdRange (img : SparseImage) (f : List Nat) (s e : Nat) : Option (List (List Nat)) :=
  let toRead : Int := (e : Int) - (s : Int)
  let idx : Int := (bisectRight (offsetIndex img) s : Int) - 1
  match pyIdx img.offset_map idx with
  | none => none
  | some c =>
    let remain : Int := (c.count : Int) - ((s : Int) - (c.start : Int))
    let thisRead : Int := min remain toRead
    let rest := img.offset_map.drop (idx + 1).toNat
    match c.filepos with
    | some p =>
      match freadPy f ((p : Int) + ((s : Int) - (c.start : Int)) * (img.blocksize : Int))
          (thisRead * (img.blocksize : Int)) with
      | none => none
      | some buf => (grdWhile img.blocksize f rest (toRead - thisRead)).map (buf :: ·)
    | none =>
      let buf := bytesRepeat (c.fill.getD [])
        (thisRead * ((img.blocksize >>> 2 : Nat) : Int)).toNat
      (grdWhile img.blocksize f rest (toRead - thisRead)).map (buf :: ·)

/-- `_GetRangeData` over all the `(s, e)` pairs of the requested
RangeSet, in order; `none` is any runtime error raised while the
generator is drained. -/
def GetRangeData (img : SparseImage) (f : List Nat) : List (Nat × Nat) → Option (List (List Nat))
  | [] => some []
  | (s, e) :: rest =>
    match grdRange img f s e, GetRangeData img f rest with
    | some bufs, some more => some (bufs ++ more)
    | _, _ => none

/-- `ReadRangeSet`: the list of all buffers produced by `_GetRangeData`. -/
def ReadRangeSet (img : SparseImage) (f : List Nat) (ranges : List (Nat × Nat)) :
    Option (List (List Nat)) :=
  GetRangeData img f ranges

/-- The decoded content of one block, as the specification describes
it: for a raw chunk, `block_size` bytes of the file at `source_offset`
plus the block's offset within the chunk; for a fill chunk, the fill
pattern replicated across the block (`block_size / 4` copies of the
4-byte pattern). -/
def decodeBlock (img : SparseImage) (f : List Nat) (b : Nat) : List Nat :=
  match img.offset_map.find?
      (fun c => decide (c.start ≤ b) && decide (b < c.start + c.count)) with
  | some c =>
    match c.filepos with
    | some p => fread f (p + (b - c.start) * img.blocksize) img.blocksize
    | none => bytesRepeat (c.fill.getD []) (img.blocksize / 4)
  | none => []

/-- The reference byte content of the blocks of `[s, e)`, block by
block in ascending order. -/
def refBytes (img : SparseImage) (f : List Nat) (s e : Nat) : List Nat :=
  ((List.range' s (e - s)).map (decodeBlock img f)).flatten

/-! ## `LoadFileBlockMap` and the zero-block classifier

A block-map line is modelled after `rangelib.RangeSet.parse` as a file
name together with the block set of the parsed RangeSet; the file map
is the association list of its entries in insertion order. -/

/-- The per-line loop of `LoadFileBlockMap`.  Each entry is recorded in
`out` *before* the containment assertion is checked, exactly as in the
source (`out[fn] = ranges` precedes the `assert`), so on an assertion
failure the entries recorded so far — the offending one included — are
returned with `false`. -/
def loadLines (remaining : Finset Nat) :
    List (String × Finset Nat) → List (String × Finset Nat) × Finset Nat × Bool
  | [] => ([], remaining, true)
  | (n, r) :: rest =>
    if r.card = (r ∩ remaining).card then
      let res := loadLines (remaining \ r) rest
      ((n, r) :: res.1, res.2.1, res.2.2)
    else ([(n, r)], remaining, false)

/-- The per-block zero test of `LoadFileBlockMap`: look the block up in
the chunk index exactly as the extractor does, read one block (raw) or
take the all-zero reference block (zero fill pattern) or `None`
(non-zero fill pattern), and compare with the reference block.  The
outer `Option` is a runtime error (`IndexError` on the descriptor list
or a negative seek); the inner `Option (List Nat)` is the Python `data`
variable, which may be `None`. -/
def blockIsZero (img : SparseImage) (f : List Nat) (b : Nat) : Option Bool :=
  let reference := List.replicate img.blocksize 0
  match pyIdx img.offset_map ((bisectRight (offsetIndex img) b : Int) - 1) with
  | none => none
  | some c =>
    match c.filepos with
    | some p =>
      match freadPy f ((p : Int) + ((b : Int) - (c.start : Int)) * (img.blocksize : Int))
          (img.blocksize : Int) with
      | none => none
      | some bytes => some ((some bytes : Option (List Nat)) == some reference)
    | none =>
      let data : Option (List Nat) :=
        if c.fill.getD [] == reference.take 4 then some reference else none
      some (data == some reference)

/-- The outcome of `LoadFileBlockMap`, carrying the final state of
`self.file_map` in every case: a completed differentiated map, the
partial map left behind by a failed containment assertion, or the
partial map left behind by a runtime error during classification. -/
inductive LoadResult where
  | ok (fm : List (String × Finset Nat)) : LoadResult
  | assertFail (fm : List (String × Finset Nat)) : LoadResult
  | runtimeError (fm : List (String × Finset Nat)) : LoadResult
  deriving DecidableEq

/-- `LoadFileBlockMap`: apply the block-map lines, then classify every
still-unclaimed care block as zero or non-zero and append the two
synthetic `__ZERO`/`__NONZERO` entries. -/
def LoadFileBlockMap (img : SparseImage) (f : List Nat)
    (lines : List (String × Finset Nat)) : LoadResult :=
  match loadLines (careFinset img) lines with
  | (out, _, false) => .assertFail out
  | (out, remaining, true) =>
    if ∀ b ∈ remaining, (blockIsZero img f b).isSome then
      .ok (out ++ [("__ZERO", remaining.filter (fun b => blockIsZero img f b = some true)),
                   ("__NONZERO", remaining.filter (fun b => blockIsZero img f b ≠ some true))])
    else .runtimeError out

/-- The mutable state of an image handle: the immutable parsed image
together with the current `self.file_map`. -/
structure ImgState where
  img : SparseImage
  file_map : List (String × Finset Nat)
  deriving DecidableEq

/-- `LoadFileBlockMap` acting on the handle state: `self.file_map` is
reassigned to the new dictionary at entry, so it holds the (possibly
partial) new entries whether or not the call succeeds. -/
def LoadFileBlockMapS (st : ImgState) (f : List Nat)
    (lines : List (String × Finset Nat)) : ImgState × Bool :=
  match LoadFileBlockMap st.img f lines with
  | .ok out => ({ st with file_map := out }, true)
  | .assertFail out => ({ st with file_map := out }, false)
  | .runtimeError out => ({ st with file_map := out }, false)

/-- `ResetFileMap`: replace the file map with the single
undifferentiated `__DATA` entry covering the care range set. -/
def ResetFileMap (st : ImgState) : ImgState :=
  { st with file_map := [("__DATA", careFinset st.img)] }

/-! ## The chunk-table layout

To state which blocks belong to don't-care chunks (the parser records
no descriptor for them), the position of every chunk in the block
address space is listed by a side traversal. -/

/-- The type code, start block and block count of one chunk of the
container. -/
structure ChunkRec where
  ctype : Nat
  start : Nat
  count : Nat
  deriving Repr, DecidableEq

/-- Modelled from the spec (§4.1, chunk-type table): the layout of the
chunk table — each chunk's type, starting block-position cursor and
declared block count, with the cursor advancing by the block count and
the file position advancing over each chunk's header and payload. -/
def chunkTable (f : List Nat) (blkSz : Nat) : Nat → Nat → Nat → Option (List ChunkRec)
  | 0, _, _ => some []
  | n + 1, fpos, pos =>
    match readExact f fpos 12 with
    | none => none
    | some hdr =>
      let chunkType := u16le (hdr.take 2)
      let chunkSz := u32le ((hdr.drop 4).take 4)
      let totalSz := u32le ((hdr.drop 8).take 4)
      let dataSz : Int := (totalSz : Int) - 12
      let nextF : Nat :=
        if chunkType = 0xCAC1 then fpos + 12 + dataSz.toNat
        else if chunkType = 0xCAC2 then fpos + 12 + (fread f (fpos + 12) 4).length
        else fpos + 12
      (chunkTable f blkSz n nextF (pos + chunkSz)).map (⟨chunkType, pos, chunkSz⟩ :: ·)

/-- The validity of the chunk table, stated as the enumerated
conditions of the error taxonomy: each chunk header is complete and
satisfies the per-type checks (raw payload size equals
`block_count * block_size`, don't-care payload size zero); CRC and
unknown chunk types are invalid. -/
def chunksValid (f : List Nat) (blkSz : Nat) : Nat → Nat → Bool
  | 0, _ => true
  | n + 1, fpos =>
    match readExact f fpos 12 with
    | none => false
    | some hdr =>
      let chunkType := u16le (hdr.take 2)
      let chunkSz := u32le ((hdr.drop 4).take 4)
      let totalSz := u32le ((hdr.drop 8).take 4)
      let dataSz : Int := (totalSz : Int) - 12
      if chunkType = 0xCAC1 then
        decide (dataSz = ((chunkSz * blkSz : Nat) : Int)) &&
          chunksValid f blkSz n (fpos + 12 + dataSz.toNat)
      else if chunkType = 0xCAC2 then
        chunksValid f blkSz n (fpos + 12 + (fread f (fpos + 12) 4).length)
      else if chunkType = 0xCAC3 then
        decide (dataSz = 0) && chunksValid f blkSz n (fpos + 12)
      else false

/-- Structural validity of a container, as the claim enumerates it:
complete 28-byte header, correct magic, version 1.0, declared header
sizes 28 and 12, and a valid chunk table. -/
def sparseValid (f : List Nat) : Bool :=
  match readExact f 0 28 with
  | none => false
  | some hdr =>
    decide (u32le (hdr.take 4) = 0xED26FF3A) &&
    decide (u16le ((hdr.drop 4).take 2) = 1) &&
    decide (u16le ((hdr.drop 6).take 2) = 0) &&
    decide (u16le ((hdr.drop 8).take 2) = 28) &&
    decide (u16le ((hdr.drop 10).take 2) = 12) &&
    chunksValid f (u32le ((hdr.drop 12).take 4)) (u32le ((hdr.drop 20).take 4)) 28

/-! ## Concrete test containers -/

/-- A 72-byte container: block size 4, one raw chunk of one block
(bytes 1,2,3,4), one fill chunk of one block (pattern 9,9,9,9), one
don't-care chunk of one block. -/
def fileA : List Nat :=
  [0x3A, 0xFF, 0x26, 0xED, 1, 0, 0, 0, 28, 0, 12, 0,
   4, 0, 0, 0, 3, 0, 0, 0, 3, 0, 0, 0, 0, 0, 0, 0] ++
  [0xC1, 0xCA, 0, 0, 1, 0, 0, 0, 16, 0, 0, 0] ++ [1, 2, 3, 4] ++
  [0xC2, 0xCA, 0, 0, 1, 0, 0, 0, 16, 0, 0, 0] ++ [9, 9, 9, 9] ++
  [0xC3, 0xCA, 0, 0, 1, 0, 0, 0, 12, 0, 0, 0]

/-- The image `fileA` parses to. -/
def imgA : SparseImage :=
  ⟨4, 3, [(0, 1), (1, 2)], [⟨0, 1, some 40, none⟩, ⟨1, 1, none, some [9, 9, 9, 9]⟩]⟩

/-- A 44-byte container with block size 6 (not a multiple of 4) and a
single fill chunk of two blocks. -/
def fileB : List Nat :=
  [0x3A, 0xFF, 0x26, 0xED, 1, 0, 0, 0, 28, 0, 12, 0,
   6, 0, 0, 0, 2, 0, 0, 0, 1, 0, 0, 0, 0, 0, 0, 0] ++
  [0xC2, 0xCA, 0, 0, 2, 0, 0, 0, 16, 0, 0, 0] ++ [1, 1, 1, 1]

/-- The image `fileB` parses to. -/
def imgB : SparseImage := ⟨6, 2, [(0, 2)], [⟨0, 2, none, some [1, 1, 1, 1]⟩]⟩

/-- A container whose single fill chunk declares zero blocks. -/
def fileZeroCount : List Nat :=
  [0x3A, 0xFF, 0x26, 0xED, 1, 0, 0, 0, 28, 0, 12, 0,
   4, 0, 0, 0, 1, 0, 0, 0, 1, 0, 0, 0, 0, 0, 0, 0] ++
  [0xC2, 0xCA, 0, 0, 0, 0, 0, 0, 12, 0, 0, 0] ++ [9, 9, 9, 9]

/-- A container whose magic word is wrong (first byte zeroed). -/
def fileBadMagic : List Nat :=
  [0x00, 0xFF, 0x26, 0xED, 1, 0, 0, 0, 28, 0, 12, 0,
   4, 0, 0, 0, 1, 0, 0, 0, 0, 0, 0, 0, 0, 0, 0, 0]

/-- An image-handle state holding the undifferentiated map of `imgA`. -/
def stA : ImgState := ⟨imgA, [("__DATA", careFinset imgA)]⟩

/-! ## Structure of a successful parse -/

theorem mem_unionChunks {l : List Chunk} {b : Nat} :
    b ∈ unionChunks l ↔ ∃ c ∈ l, c.start ≤ b ∧ b < c.start + c.count := by
  induction l with
  | nil => simp [unionChunks]
  | cons c rest ih =>
    simp only [unionChunks, List.foldr_cons, Finset.mem_union, Finset.mem_Ico] at *
    constructor
    · rintro (h | h)
      · exact ⟨c, List.mem_cons_self c rest, h⟩
      · obtain ⟨d, hd, hdb⟩ := ih.mp h
        exact ⟨d, List.mem_cons_of_mem c hd, hdb⟩
    · rintro ⟨d, hd, hdb⟩
      rcases List.mem_cons.mp hd with rfl | hd
      · exact Or.inl hdb
      · exact Or.inr (ih.mpr ⟨d, hd, hdb⟩)

theorem unionPairs_map_chunks (l : List Chunk) :
    unionPairs (l.map (fun c => (c.start, c.start + c.count))) = unionChunks l := by
  simp [unionPairs, unionChunks, List.foldr_map]

/-- The master induction over the chunk-table loop: a successful
`parseChunks` run produces `care_data` pairs matching the descriptors
one for one, descriptors at or beyond the starting cursor in
non-overlapping ascending order, and a chunk table whose raw/fill
entries are exactly the descriptors and whose don't-care entries are
disjoint from every descriptor's range. -/
theorem parseChunks_spec (f : List Nat) (blkSz : Nat) :
    ∀ (n fpos pos : Nat) (care : List (Nat × Nat)) (chunks : List Chunk),
      parseChunks f blkSz n fpos pos = .ok (care, chunks) →
      ∃ tbl, chunkTable f blkSz n fpos pos = some tbl ∧
        care = chunks.map (fun c => (c.start, c.start + c.count)) ∧
        (∀ c ∈ chunks, pos ≤ c.start) ∧
        (∀ r ∈ tbl, pos ≤ r.start) ∧
        List.Chain' (fun a b => a.start + a.count ≤ b.start) chunks ∧
        chunks.map (fun c => (c.start, c.count)) =
          (tbl.filter (fun r => decide (r.ctype ≠ 0xCAC3))).map (fun r => (r.start, r.count)) ∧
        (∀ r ∈ tbl, r.ctype = 0xCAC3 →
          ∀ c ∈ chunks, c.start + c.count ≤ r.start ∨ r.start + r.count ≤ c.start) ∧
        (∀ r ∈ tbl, r.ctype = 0xCAC1 ∨ r.ctype = 0xCAC2 ∨ r.ctype = 0xCAC3) := by
  intro n
  induction n with
  | zero =>
    intro fpos pos care chunks h
    simp only [parseChunks] at h
    obtain ⟨rfl, rfl⟩ : care = [] ∧ chunks = [] := by
      cases h; exact ⟨rfl, rfl⟩
    exact ⟨[], by simp [chunkTable]⟩
  | succ n ih =>
    intro fpos pos care chunks h
    simp only [parseChunks] at h
    cases hre : readExact f fpos 12 with
    | none => rw [hre] at h; cases h
    | some hdr =>
      rw [hre] at h
      simp only at h
      by_cases hty1 : u16le (hdr.take 2) = 0xCAC1
      · rw [if_pos hty1] at h
        by_cases hsz : ((u32le ((hdr.drop 8).take 4) : Int) - 12) ≠
            ((u32le ((hdr.drop 4).take 4) * blkSz : Nat) : Int)
        · rw [if_pos hsz] at h; cases h
        · rw [if_neg hsz] at h
          cases hrec : parseChunks f blkSz n
              (fpos + 12 + ((u32le ((hdr.drop 8).take 4) : Int) - 12).toNat)
              (pos + u32le ((hdr.drop 4).take 4)) with
          | error e => rw [hrec] at h; cases h
          | ok res =>
            obtain ⟨care', chunks'⟩ := res
            rw [hrec] at h
            simp only [Except.ok.injEq, Prod.mk.injEq] at h
            obtain ⟨rfl, rfl⟩ := h
            obtain ⟨tbl, htbl, hcare, hcpos, hrpos, hchain, hfil, hdc, htys⟩ :=
              ih _ _ _ _ hrec
            refine ⟨⟨0xCAC1, pos, u32le ((hdr.drop 4).take 4)⟩ :: tbl, ?_, ?_, ?_, ?_, ?_, ?_, ?_, ?_⟩
            · simp only [chunkTable, hre, if_pos hty1]
              rw [htbl]; simp [hty1]
            · simpa using hcare
            · intro c hc
              rcases List.mem_cons.mp hc with rfl | hc
              · exact le_refl _
              · exact le_trans (Nat.le_add_right _ _) (hcpos c hc)
            · intro r hr
              rcases List.mem_cons.mp hr with rfl | hr
              · exact le_refl _
              · exact le_trans (Nat.le_add_right _ _) (hrpos r hr)
            · rw [List.chain'_cons']
              refine ⟨?_, hchain⟩
              intro b hb
              have := hcpos b (List.mem_of_mem_head? hb)
              simpa using this
            · simpa using hfil
            · intro r hr hrty c hc
              rcases List.mem_cons.mp hr with rfl | hr
              · simp at hrty
              · rcases List.mem_cons.mp hc with rfl | hc
                · exact Or.inl (by simpa using hrpos r hr)
                · exact hdc r hr hrty c hc
            · intro r hr
              rcases List.mem_cons.mp hr with rfl | hr
              · exact Or.inl rfl
              · exact htys r hr
      · rw [if_neg hty1] at h
        by_cases hty2 : u16le (hdr.take 2) = 0xCAC2
        · rw [if_pos hty2] at h
          cases hrec : parseChunks f blkSz n
              (fpos + 12 + (fread f (fpos + 12) 4).length)
              (pos + u32le ((hdr.drop 4).take 4)) with
          | error e => rw [hrec] at h; cases h
          | ok res =>
            obtain ⟨care', chunks'⟩ := res
            rw [hrec] at h
            simp only [Except.ok.injEq, Prod.mk.injEq] at h
            obtain ⟨rfl, rfl⟩ := h
            obtain ⟨tbl, htbl, hcare, hcpos, hrpos, hchain, hfil, hdc, htys⟩ :=
              ih _ _ _ _ hrec
            refine ⟨⟨0xCAC2, pos, u32le ((hdr.drop 4).take 4)⟩ :: tbl, ?_, ?_, ?_, ?_, ?_, ?_, ?_, ?_⟩
            · simp only [chunkTable, hre, if_neg hty1, if_pos hty2]
              rw [htbl]; simp [hty2]
            · simpa using hcare
            · intro c hc
              rcases List.mem_cons.mp hc with rfl | hc
              · exact le_refl _
              · exact le_trans (Nat.le_add_right _ _) (hcpos c hc)
            · intro r hr
              rcases List.mem_cons.mp hr with rfl | hr
              · exact le_refl _
              · exact le_trans (Nat.le_add_right _ _) (hrpos r hr)
            · rw [List.chain'_cons']
              refine ⟨?_, hchain⟩
              intro b hb
              have := hcpos b (List.mem_of_mem_head? hb)
              simpa using this
            · simpa using hfil
            · intro r hr hrty c hc
              rcases List.mem_cons.mp hr with rfl | hr
              · simp at hrty
              · rcases List.mem_cons.mp hc with rfl | hc
                · exact Or.inl (by simpa using hrpos r hr)
                · exact hdc r hr hrty c hc
            · intro r hr
              rcases List.mem_cons.mp hr with rfl | hr
              · exact Or.inr (Or.inl rfl)
              · exact htys r hr
        · rw [if_neg hty2] at h
          by_cases hty3 : u16le (hdr.take 2) = 0xCAC3
          · rw [if_pos hty3] at h
            by_cases hdz : ((u32le ((hdr.drop 8).take 4) : Int) - 12) ≠ 0
            · rw [if_pos hdz] at h; cases h
            · rw [if_neg hdz] at h
              obtain ⟨tbl, htbl, hcare, hcpos, hrpos, hchain, hfil, hdc, htys⟩ :=
                ih _ _ _ _ h
              refine ⟨⟨0xCAC3, pos, u32le ((hdr.drop 4).take 4)⟩ :: tbl, ?_, hcare, ?_, ?_,
                hchain, ?_, ?_, ?_⟩
              · simp only [chunkTable, hre, if_neg hty1, if_neg hty2]
                rw [htbl]; simp [hty3]
              · intro c hc
                exact le_trans (Nat.le_add_right _ _) (hcpos c hc)
              · intro r hr
                rcases List.mem_cons.mp hr with rfl | hr
                · exact le_refl _
                · exact le_trans (Nat.le_add_right _ _) (hrpos r hr)
              · simpa [hty3] using hfil
              · intro r hr hrty c hc
                rcases List.mem_cons.mp hr with rfl | hr
                · exact Or.inr (by simpa using hcpos c hc)
                · exact hdc r hr hrty c hc
              · intro r hr
                rcases List.mem_cons.mp hr with rfl | hr
                · exact Or.inr (Or.inr rfl)
                · exact htys r hr
          · rw [if_neg hty3] at h
            by_cases hty4 : u16le (hdr.take 2) = 0xCAC4
            · rw [if_pos hty4] at h; cases h
            · rw [if_neg hty4] at h; cases h

/-- A successful `parseSparseImage` comes from a successful header read
and a successful chunk loop at file position 28, block cursor 0. -/
theorem parseSparseImage_chunks {f : List Nat} {img : SparseImage}
    (h : parseSparseImage f = .ok img) :
    ∃ hdr, readExact f 0 28 = some hdr ∧
      img.blocksize = u32le ((hdr.drop 12).take 4) ∧
      img.total_blocks = u32le ((hdr.drop 16).take 4) ∧
      parseChunks f img.blocksize (u32le ((hdr.drop 20).take 4)) 28 0 =
        .ok (img.care_pairs, img.offset_map) := by
  simp only [parseSparseImage] at h
  cases hre : readExact f 0 28 with
  | none => rw [hre] at h; cases h
  | some hdr =>
    rw [hre] at h
    simp only at h
    split at h
    · cases h
    · split at h
      · cases h
      · split at h
        · cases h
        · split at h
          · cases h
          · cases hpc : parseChunks f (u32le ((hdr.drop 12).take 4))
                (u32le ((hdr.drop 20).take 4)) 28 0 with
            | error e => rw [hpc] at h; cases h
            | ok res =>
              obtain ⟨care, chunks⟩ := res
              rw [hpc] at h
              cases h
              exact ⟨hdr, rfl, rfl, rfl, hpc⟩

/-- The `care_data` pairs of a parsed image are the descriptor
intervals, one pair per descriptor, in the same order. -/
theorem parse_care_eq {f : List Nat} {img : SparseImage}
    (h : parseSparseImage f = .ok img) :
    img.care_pairs = img.offset_map.map (fun c => (c.start, c.start + c.count)) := by
  obtain ⟨hdr, _, _, _, hpc⟩ := parseSparseImage_chunks h
  obtain ⟨tbl, _, hcare, _⟩ := parseChunks_spec f img.blocksize _ _ _ _ _ hpc
  exact hcare

/-- The descriptors of a parsed image are in ascending order with
non-overlapping block ranges. -/
theorem parse_chain {f : List Nat} {img : SparseImage}
    (h : parseSparseImage f = .ok img) :
    List.Chain' (fun a b => a.start + a.count ≤ b.start) img.offset_map := by
  obtain ⟨hdr, _, _, _, hpc⟩ := parseSparseImage_chunks h
  obtain ⟨tbl, _, _, _, _, hchain, _⟩ := parseChunks_spec f img.blocksize _ _ _ _ _ hpc
  exact hchain

/-- The care set of a parsed image is the union of the descriptor
block intervals. -/
theorem parse_care_set {f : List Nat} {img : SparseImage}
    (h : parseSparseImage f = .ok img) :
    careFinset img = unionChunks img.offset_map := by
  rw [careFinset, parse_care_eq h, unionPairs_map_chunks]

/-- Chunk ordering: adjacent non-overlap implies pairwise non-overlap. -/
theorem chain_chunk_pairwise {l : List Chunk}
    (h : List.Chain' (fun a b => a.start + a.count ≤ b.start) l) :
    List.Pairwise (fun a b => a.start + a.count ≤ b.start) l := by
  haveI : IsTrans Chunk (fun a b => a.start + a.count ≤ b.start) :=
    ⟨fun a b c hab hbc => le_trans hab (le_trans (Nat.le_add_right _ _) hbc)⟩
  exact List.chain'_iff_pairwise.mp h

/-- The descriptors of a parsed image are pairwise non-overlapping. -/
theorem parse_pairwise {f : List Nat} {img : SparseImage}
    (h : parseSparseImage f = .ok img) :
    List.Pairwise (fun a b => a.start + a.count ≤ b.start) img.offset_map :=
  chain_chunk_pairwise (parse_chain h)

/-! ## The binary search of `_GetRangeData` -/

/-- For pairwise-ordered descriptors, `bisect_right(offset_index, s) - 1`
lands exactly on the descriptor whose block range contains `s`. -/
theorem bisectRight_containing {l : List Chunk} {s k : Nat}
    (hpw : List.Pairwise (fun a b => a.start + a.count ≤ b.start) l)
    (hk : k < l.length) (h1 : l[k].start ≤ s) (h2 : s < l[k].start + l[k].count) :
    bisectRight (l.map (·.start)) s = k + 1 := by
  have hget := List.pairwise_iff_getElem.mp hpw
  rw [bisectRight, List.countP_map]
  have hsplit : l = l.take (k + 1) ++ l.drop (k + 1) := (List.take_append_drop _ _).symm
  rw [hsplit, List.countP_append]
  have htake : List.countP ((fun y => decide (y ≤ s)) ∘ (·.start)) (l.take (k + 1)) = k + 1 := by
    rw [List.countP_eq_length.mpr, List.length_take]
    · omega
    · intro a ha
      obtain ⟨i, hi, rfl⟩ := List.mem_take_iff_getElem.mp ha
      rcases Nat.lt_or_ge i k with hik | hik
      · have := hget i k (by omega) hk hik
        simp only [Function.comp_apply, decide_eq_true_eq]
        omega
      · have : i = k := by omega
        subst this
        simpa using h1
  have hdrop : List.countP ((fun y => decide (y ≤ s)) ∘ (·.start)) (l.drop (k + 1)) = 0 := by
    rw [List.countP_eq_zero]
    intro a ha
    obtain ⟨i, hi, rfl⟩ := List.mem_drop_iff_getElem.mp ha
    have := hget k (k + 1 + i) hk (by omega) (by omega)
    simp only [Function.comp_apply, decide_eq_true_eq]
    omega
  omega

/-- A block of the union of the descriptor ranges has a containing
descriptor, addressed by position in the list. -/
theorem exists_containing {l : List Chunk} {b : Nat}
    (hb : b ∈ unionChunks l) :
    ∃ k, ∃ hk : k < l.length, l[k].start ≤ b ∧ b < l[k].start + l[k].count := by
  obtain ⟨c, hc, h1, h2⟩ := mem_unionChunks.mp hb
  obtain ⟨k, hk, rfl⟩ := List.mem_iff_getElem.mp hc
  exact ⟨k, hk, h1, h2⟩

/-- The containing descriptor is unique (by position). -/
theorem containing_unique {l : List Chunk} {b k₁ k₂ : Nat}
    (hpw : List.Pairwise (fun a b => a.start + a.count ≤ b.start) l)
    (hk₁ : k₁ < l.length) (hk₂ : k₂ < l.length)
    (ha1 : l[k₁].start ≤ b) (ha2 : b < l[k₁].start + l[k₁].count)
    (hb1 : l[k₂].start ≤ b) (hb2 : b < l[k₂].start + l[k₂].count) : k₁ = k₂ := by
  have hget := List.pairwise_iff_getElem.mp hpw
  rcases Nat.lt_trichotomy k₁ k₂ with h | h | h
  · have := hget k₁ k₂ hk₁ hk₂ h
    omega
  · exact h
  · have := hget k₂ k₁ hk₂ hk₁ h
    omega

/-- `find?` with the containment test returns the containing
descriptor. -/
theorem find_containing {l : List Chunk} {b k : Nat}
    (hpw : List.Pairwise (fun a b => a.start + a.count ≤ b.start) l)
    (hk : k < l.length) (h1 : l[k].start ≤ b) (h2 : b < l[k].start + l[k].count) :
    l.find? (fun c => decide (c.start ≤ b) && decide (b < c.start + c.count)) = some l[k] := by
  have hsome : (l.find? (fun c => decide (c.start ≤ b) && decide (b < c.start + c.count))).isSome := by
    rw [List.find?_isSome]
    exact ⟨l[k], List.getElem_mem hk, by simp [h1, h2]⟩
  obtain ⟨c, hc⟩ := Option.isSome_iff_exists.mp hsome
  have hcl : c ∈ l := List.mem_of_find?_eq_some hc
  have hcp := List.find?_some hc
  simp only [Bool.and_eq_true, decide_eq_true_eq] at hcp
  obtain ⟨j, hj, rfl⟩ := List.mem_iff_getElem.mp hcl
  rw [hc]
  congr 1
  have := containing_unique hpw hj hk hcp.1 hcp.2 h1 h2
  subst this
  rfl

/-! ## Buffer arithmetic -/

theorem fread_add (f : List Nat) (pos a b : Nat) :
    fread f pos (a + b) = fread f pos a ++ fread f (pos + a) b := by
  unfold fread
  rw [List.take_add, List.drop_drop]

theorem bytesRepeat_add (p : List Nat) (a b : Nat) :
    bytesRepeat p (a + b) = bytesRepeat p a ++ bytesRepeat p b := by
  unfold bytesRepeat
  rw [List.replicate_add, List.flatten_append]

/-- A flat read of `t` blocks is the concatenation of `t` one-block
reads. -/
theorem fread_flatten (f : List Nat) (bs : Nat) :
    ∀ (t pos : Nat), fread f pos (t * bs) =
      ((List.range t).map (fun i => fread f (pos + i * bs) bs)).flatten := by
  intro t
  induction t with
  | zero => intro pos; simp [fread]
  | succ t ih =>
    intro pos
    have hm : (t + 1) * bs = bs + t * bs := by ring
    rw [hm, fread_add, List.range_succ_eq_map]
    simp only [List.map_cons, List.map_map, List.flatten_cons]
    rw [ih (pos + bs)]
    congr 1
    · simp
    · congr 1
      apply List.map_congr_left
      intro i _
      simp only [Function.comp_apply, Nat.succ_eq_add_one]
      congr 1
      ring

/-- A fill emission over `t` blocks is the concatenation of `t`
one-block fill emissions. -/
theorem bytesRepeat_flatten (p : List Nat) (k : Nat) :
    ∀ t : Nat, bytesRepeat p (t * k) =
      ((List.range t).map (fun _ => bytesRepeat p k)).flatten := by
  intro t
  induction t with
  | zero => simp [bytesRepeat]
  | succ t ih =>
    have hm : (t + 1) * k = k + t * k := by ring
    rw [hm, bytesRepeat_add, List.range_succ_eq_map]
    simp only [List.map_cons, List.map_map, List.flatten_cons]
    rw [ih]
    congr 1

/-! ## Correctness of the range-data extractor -/

/-- One-block evaluation of the reference decode at a block contained
in descriptor `k`. -/
theorem decodeBlock_eq {img : SparseImage} {f : List Nat} {b k : Nat}
    (hpw : List.Pairwise (fun a b => a.start + a.count ≤ b.start) img.offset_map)
    (hk : k < img.offset_map.length)
    (h1 : img.offset_map[k].start ≤ b)
    (h2 : b < img.offset_map[k].start + img.offset_map[k].count) :
    decodeBlock img f b =
      match img.offset_map[k].filepos with
      | some p => fread f (p + (b - img.offset_map[k].start) * img.blocksize) img.blocksize
      | none => bytesRepeat (img.offset_map[k].fill.getD []) (img.blocksize / 4) := by
  unfold decodeBlock
  rw [find_containing hpw hk h1 h2]

theorem grdWhile_nonpos (bs : Nat) (f : List Nat) (chunks : List Chunk)
    {t : Int} (ht : t ≤ 0) : grdWhile bs f chunks t = some [] := by
  cases chunks with
  | nil => rw [grdWhile, if_pos ht]
  | cons c rest => rw [grdWhile, if_pos ht]

theorem grdWhile_nil_pos (bs : Nat) (f : List Nat) {t : Int} (ht : 0 < t) :
    grdWhile bs f [] t = none := by
  rw [grdWhile, if_neg (by omega)]

theorem grdWhile_cons (bs : Nat) (f : List Nat) (c : Chunk) (rest : List Chunk)
    {t : Int} (ht : 0 < t) :
    grdWhile bs f (c :: rest) t =
      (grdWhile bs f rest (t - min (c.count : Int) t)).map
        ((match c.filepos with
          | some p => fread f p ((min (c.count : Int) t) * (bs : Int)).toNat
          | none => bytesRepeat (c.fill.getD [])
              ((min (c.count : Int) t) * ((bs >>> 2 : Nat) : Int)).toNat) :: ·) := by
  rw [grdWhile, if_neg (by omega)]

/-- The buffer a single descriptor contributes for `thisR` blocks
starting at block `s` inside it equals the reference decode of those
blocks. -/
theorem chunk_buf_eq {img : SparseImage} {f : List Nat} {k : Nat}
    (hpw : List.Pairwise (fun a b => a.start + a.count ≤ b.start) img.offset_map)
    (hk : k < img.offset_map.length) (s thisR : Nat)
    (hoff : img.offset_map[k].start ≤ s)
    (hend : s + thisR ≤ img.offset_map[k].start + img.offset_map[k].count) :
    (match img.offset_map[k].filepos with
     | some p => fread f (p + (s - img.offset_map[k].start) * img.blocksize)
         (thisR * img.blocksize)
     | none => bytesRepeat (img.offset_map[k].fill.getD [])
         (thisR * (img.blocksize >>> 2))) =
    ((List.range' s thisR).map (decodeBlock img f)).flatten := by
  have hdec : ∀ i, i < thisR →
      decodeBlock img f (s + i) =
        match img.offset_map[k].filepos with
        | some p => fread f (p + ((s + i) - img.offset_map[k].start) * img.blocksize)
            img.blocksize
        | none => bytesRepeat (img.offset_map[k].fill.getD []) (img.blocksize / 4) := by
    intro i hi
    exact decodeBlock_eq hpw hk (by omega) (by omega)
  rw [List.range'_eq_map_range, List.map_map]
  cases hfp : img.offset_map[k].filepos with
  | some p =>
    dsimp only
    rw [fread_flatten]
    congr 1
    apply List.map_congr_left
    intro i hi
    have hi' : i < thisR := List.mem_range.mp hi
    have hthis := hdec i hi'
    rw [hfp] at hthis
    dsimp only at hthis
    simp only [Function.comp_apply]
    rw [hthis]
    have hsi : (s + i) - img.offset_map[k].start = (s - img.offset_map[k].start) + i := by
      omega
    rw [hsi, Nat.add_mul, ← Nat.add_assoc]
  | none =>
    dsimp only
    rw [bytesRepeat_flatten]
    congr 1
    apply List.map_congr_left
    intro i hi
    have hi' : i < thisR := List.mem_range.mp hi
    have hthis := hdec i hi'
    rw [hfp] at hthis
    dsimp only at hthis
    simp only [Function.comp_apply]
    rw [hthis]
    rw [Nat.shiftRight_eq_div_pow]

/-- Cast bookkeeping for the buffer sizes of `grdWhile`. -/
theorem toNat_cast_mul (a b : Nat) : (((a : Int)) * ((b : Nat) : Int)).toNat = a * b := by
  rw [← Nat.cast_mul, Int.toNat_natCast]

/-- Correctness of the `while to_read > 0` loop of `_GetRangeData`:
starting at descriptor `idx` with `t` blocks still to read from block
position `s`, with all requested blocks covered by descriptors, all
earlier descriptors ending at or before `s` and descriptor `idx`
starting at or after `s`, the loop succeeds and emits exactly the
decoded content of blocks `[s, s+t)`. -/
theorem grdWhile_spec {img : SparseImage} {f : List Nat}
    (hpw : List.Pairwise (fun a b => a.start + a.count ≤ b.start) img.offset_map) :
    ∀ (fuel idx s t : Nat),
      img.offset_map.length ≤ idx + fuel →
      (∀ b, s ≤ b → b < s + t → b ∈ unionChunks img.offset_map) →
      (∀ j (hj : j < img.offset_map.length), j < idx →
        img.offset_map[j].start + img.offset_map[j].count ≤ s) →
      (0 < t → ∀ hi : idx < img.offset_map.length, s ≤ img.offset_map[idx].start) →
      ∃ bufs, grdWhile img.blocksize f (img.offset_map.drop idx) (t : Int) = some bufs ∧
        bufs.flatten = ((List.range' s t).map (decodeBlock img f)).flatten := by
  intro fuel
  induction fuel with
  | zero =>
    intro idx s t hlen hcare hprev hstart
    rcases Nat.eq_zero_or_pos t with rfl | ht
    · exact ⟨[], grdWhile_nonpos _ _ _ (by norm_num), by simp⟩
    · exfalso
      obtain ⟨k, hk, hk1, hk2⟩ := exists_containing (hcare s le_rfl (by omega))
      have := hprev k hk (by omega)
      omega
  | succ fuel ih =>
    intro idx s t hlen hcare hprev hstart
    rcases Nat.eq_zero_or_pos t with rfl | ht
    · exact ⟨[], grdWhile_nonpos _ _ _ (by norm_num), by simp⟩
    obtain ⟨k, hk, hk1, hk2⟩ := exists_containing (hcare s le_rfl (by omega))
    have hkidx : idx ≤ k := by
      by_contra hlt
      have := hprev k hk (by omega)
      omega
    have hidxlen : idx < img.offset_map.length := by omega
    have hdropeq := List.drop_eq_getElem_cons hidxlen
    have hget := List.pairwise_iff_getElem.mp hpw
    have hs_le : s ≤ img.offset_map[idx].start := hstart ht hidxlen
    have htpos : (0 : Int) < (t : Int) := by exact_mod_cast ht
    rcases Nat.eq_zero_or_pos (img.offset_map[idx]).count with hc0 | hcpos
    · -- a zero-block descriptor: empty buffer, cursor and count unchanged
      have hkgt : idx < k := by
        rcases Nat.lt_or_ge idx k with h' | h'
        · exact h'
        · exfalso
          have : k = idx := by omega
          subst this
          omega
      have hRik := hget idx k hidxlen hk hkgt
      obtain ⟨bufs, hrun, hflat⟩ := ih (idx + 1) s t (by omega) hcare
        (fun j hj hji => by
          rcases Nat.lt_or_ge j idx with h' | h'
          · exact hprev j hj h'
          · have : j = idx := by omega
            subst this
            omega)
        (fun ht' hi => by
          have := hget idx (idx + 1) hidxlen hi (by omega)
          omega)
      have hmin : min ((img.offset_map[idx].count : Int)) ((t : Nat) : Int) = 0 := by
        omega
      refine ⟨[] :: bufs, ?_, by simpa using hflat⟩
      rw [hdropeq, grdWhile_cons _ _ _ _ htpos, hmin]
      have hbuf : (match img.offset_map[idx].filepos with
          | some p => fread f p ((0 : Int) * ((img.blocksize : Nat) : Int)).toNat
          | none => bytesRepeat (img.offset_map[idx].fill.getD [])
              ((0 : Int) * (((img.blocksize >>> 2 : Nat)) : Int)).toNat) = ([] : List Nat) := by
        cases img.offset_map[idx].filepos <;> simp [fread, bytesRepeat]
      rw [hbuf]
      have ht0 : ((t : Nat) : Int) - 0 = ((t : Nat) : Int) := by omega
      rw [ht0, hrun]
      rfl
    · -- the containing descriptor: it starts exactly at `s`
      have hkeq : k = idx := by
        by_contra hne
        have hkgt : idx < k := by omega
        have := hget idx k hidxlen hk hkgt
        omega
      subst hkeq
      have hstart_eq : img.offset_map[k].start = s := by omega
      set cnt := img.offset_map[k].count with hcnt
      set thisR := min cnt t with hthisR
      have hthisR1 : 1 ≤ thisR := by omega
      have hthisRt : thisR ≤ t := by omega
      have hmin : min ((cnt : Int)) ((t : Nat) : Int) = ((thisR : Nat) : Int) := by
        omega
      have hsub : ((t : Nat) : Int) - ((thisR : Nat) : Int) = (((t - thisR : Nat)) : Int) := by
        omega
      have hbufeq : (match img.offset_map[k].filepos with
          | some p => fread f p (((thisR : Nat) : Int) * ((img.blocksize : Nat) : Int)).toNat
          | none => bytesRepeat (img.offset_map[k].fill.getD [])
              (((thisR : Nat) : Int) * (((img.blocksize >>> 2 : Nat)) : Int)).toNat) =
          ((List.range' s thisR).map (decodeBlock img f)).flatten := by
        rw [← chunk_buf_eq hpw hk s thisR (by omega) (by omega)]
        cases img.offset_map[k].filepos with
        | some p =>
          simp only [toNat_cast_mul]
          rw [hstart_eq]
          simp [fread]
        | none =>
          simp only [toNat_cast_mul]
      rcases Nat.eq_zero_or_pos (t - thisR) with ht0 | htrest
      · -- the interval ends inside this descriptor
        have htr : thisR = t := by omega
        refine ⟨[((List.range' s thisR).map (decodeBlock img f)).flatten], ?_, by simp [htr]⟩
        rw [hdropeq, grdWhile_cons _ _ _ _ htpos, hmin, hsub, hbufeq]
        rw [show (((t - thisR : Nat)) : Int) = 0 by omega]
        rw [grdWhile_nonpos _ _ _ (by norm_num)]
        rfl
      · -- the interval continues into the following descriptors
        have htr : thisR = cnt := by omega
        obtain ⟨bufs, hrun, hflat⟩ := ih (k + 1) (s + thisR) (t - thisR) (by omega)
          (fun b hb1 hb2 => hcare b (by omega) (by omega))
          (fun j hj hji => by
            rcases Nat.lt_or_ge j k with h' | h'
            · have := hprev j hj h'
              omega
            · have : j = k := by omega
              subst this
              omega)
          (fun ht' hi => by
            have := hget k (k + 1) hidxlen hi (by omega)
            omega)
        refine ⟨((List.range' s thisR).map (decodeBlock img f)).flatten :: bufs, ?_, ?_⟩
        · rw [hdropeq, grdWhile_cons _ _ _ _ htpos, hmin, hsub, hbufeq, hrun]
          rfl
        · have hsplit : List.range' s t = List.range' s thisR ++ List.range' (s + thisR) (t - thisR) := by
            have := List.range'_append s thisR (t - thisR) 1
            simp only [Nat.one_mul] at this
            rw [show (t - thisR) + thisR = t by omega] at this
            exact this.symm
          rw [List.flatten_cons, hflat, hsplit, List.map_append, List.flatten_append]

/-- A seek-and-read at nonnegative positions is an ordinary read. -/
theorem freadPy_natCast (f : List Nat) (pos n : Nat) :
    freadPy f (pos : Int) (n : Int) = some (fread f pos n) := by
  unfold freadPy fread
  rw [if_neg (by omega), if_neg (by omega), Int.toNat_natCast, Int.toNat_natCast]

/-- Correctness of `_GetRangeData` for a single requested interval
`[s, e)` all of whose blocks are covered by descriptors: it succeeds
and its buffers concatenate to the reference decode of the interval. -/
theorem grdRange_spec {img : SparseImage} {f : List Nat}
    (hpw : List.Pairwise (fun a b => a.start + a.count ≤ b.start) img.offset_map)
    (s e : Nat) (hse : s < e)
    (hcare : ∀ b, s ≤ b → b < e → b ∈ unionChunks img.offset_map) :
    ∃ bufs, grdRange img f s e = some bufs ∧
      bufs.flatten = ((List.range' s (e - s)).map (decodeBlock img f)).flatten := by
  obtain ⟨k, hk, hk1, hk2⟩ := exists_containing (hcare s le_rfl hse)
  have hget := List.pairwise_iff_getElem.mp hpw
  have hbis : bisectRight (offsetIndex img) s = k + 1 :=
    bisectRight_containing hpw hk hk1 hk2
  have hpy : pyIdx img.offset_map (((bisectRight (offsetIndex img) s : Nat) : Int) - 1) =
      some img.offset_map[k] := by
    rw [hbis]
    unfold pyIdx
    rw [if_pos (by omega)]
    rw [show (((k + 1 : Nat) : Int) - 1).toNat = k by omega]
    exact List.getElem?_eq_getElem hk
  have hdrop : ((((bisectRight (offsetIndex img) s : Nat) : Int) - 1) + 1).toNat = k + 1 := by
    rw [hbis]; omega
  set remainN := img.offset_map[k].count - (s - img.offset_map[k].start) with hremainN
  set thisRN := min remainN (e - s) with hthisRN
  have hremain1 : 1 ≤ remainN := by omega
  have hthisR1 : 1 ≤ thisRN := by omega
  have hremainI : (img.offset_map[k].count : Int) -
      ((s : Int) - (img.offset_map[k].start : Int)) = ((remainN : Nat) : Int) := by omega
  have htoRead : (e : Int) - (s : Int) = (((e - s : Nat)) : Int) := by omega
  have hminI : min ((remainN : Nat) : Int) (((e - s : Nat)) : Int) = ((thisRN : Nat) : Int) := by
    omega
  have hbufeq := @chunk_buf_eq img f k hpw hk s thisRN (by omega) (by omega)
  have hrest : ∃ bufs, grdWhile img.blocksize f (img.offset_map.drop (k + 1))
      (((e - s - thisRN : Nat)) : Int) = some bufs ∧
      bufs.flatten = ((List.range' (s + thisRN) (e - s - thisRN)).map (decodeBlock img f)).flatten := by
    rcases Nat.eq_zero_or_pos (e - s - thisRN) with ht0 | htrest
    · rw [ht0]
      exact ⟨[], grdWhile_nonpos _ _ _ (by norm_num), by simp⟩
    · have hteq : thisRN = remainN := by omega
      exact grdWhile_spec hpw img.offset_map.length (k + 1) (s + thisRN) (e - s - thisRN)
        (by omega)
        (fun b hb1 hb2 => hcare b (by omega) (by omega))
        (fun j hj hji => by
          rcases Nat.lt_or_ge j k with h' | h'
          · have := hget j k hj hk h'
            omega
          · have : j = k := by omega
            subst this
            omega)
        (fun ht' hi => by
          have := hget k (k + 1) hk hi (by omega)
          omega)
  obtain ⟨bufs, hrun, hflat⟩ := hrest
  have hjoin : ∀ buf : List Nat,
      buf = ((List.range' s thisRN).map (decodeBlock img f)).flatten →
      (buf :: bufs).flatten = ((List.range' s (e - s)).map (decodeBlock img f)).flatten := by
    intro buf hbuf
    have hsplit : List.range' s (e - s) =
        List.range' s thisRN ++ List.range' (s + thisRN) (e - s - thisRN) := by
      have := List.range'_append s thisRN (e - s - thisRN) 1
      simp only [Nat.one_mul] at this
      rw [show (e - s - thisRN) + thisRN = e - s by omega] at this
      exact this.symm
    rw [List.flatten_cons, hbuf, hflat, hsplit, List.map_append, List.flatten_append]
  simp only [grdRange]
  rw [hpy]
  dsimp only
  cases hfp : img.offset_map[k].filepos with
  | some p =>
    rw [hfp] at hbufeq
    dsimp only at hbufeq
    dsimp only
    have hposI : (p : Int) + ((s : Int) - (img.offset_map[k].start : Int)) *
        (img.blocksize : Int) =
        (((p + (s - img.offset_map[k].start) * img.blocksize : Nat)) : Int) := by
      rw [show (s : Int) - (img.offset_map[k].start : Int) =
          ((s - img.offset_map[k].start : Nat) : Int) by omega]
      push_cast
      ring
    have hlenI : min ((img.offset_map[k].count : Int) -
          ((s : Int) - (img.offset_map[k].start : Int))) ((e : Int) - (s : Int)) *
        (img.blocksize : Int) = (((thisRN * img.blocksize : Nat)) : Int) := by
      rw [hremainI, htoRead, hminI, ← Nat.cast_mul]
    rw [hposI, hlenI, freadPy_natCast]
    dsimp only
    rw [hremainI, htoRead, hminI, hdrop]
    rw [show (((e - s : Nat)) : Int) - ((thisRN : Nat) : Int) =
        (((e - s - thisRN : Nat)) : Int) by omega]
    rw [hrun]
    exact ⟨_, rfl, hjoin _ hbufeq⟩
  | none =>
    rw [hfp] at hbufeq
    dsimp only at hbufeq
    dsimp only
    rw [hremainI, htoRead, hminI, hdrop]
    rw [show (((e - s : Nat)) : Int) - ((thisRN : Nat) : Int) =
        (((e - s - thisRN : Nat)) : Int) by omega]
    rw [hrun]
    refine ⟨_, rfl, ?_⟩
    apply hjoin
    rw [← hbufeq, toNat_cast_mul]

/-- Correctness of `_GetRangeData` over a list of requested intervals,
each nonempty and covered by descriptors. -/
theorem GetRangeData_spec {img : SparseImage} {f : List Nat}
    (hpw : List.Pairwise (fun a b => a.start + a.count ≤ b.start) img.offset_map) :
    ∀ ranges : List (Nat × Nat),
      (∀ p ∈ ranges, p.1 < p.2 ∧
        ∀ b, p.1 ≤ b → b < p.2 → b ∈ unionChunks img.offset_map) →
      ∃ bufs, GetRangeData img f ranges = some bufs ∧
        bufs.flatten = (ranges.map (fun p =>
          ((List.range' p.1 (p.2 - p.1)).map (decodeBlock img f)).flatten)).flatten := by
  intro ranges
  induction ranges with
  | nil => exact fun _ => ⟨[], rfl, by simp⟩
  | cons pr rest ih =>
    intro hr
    obtain ⟨s, e⟩ := pr
    obtain ⟨hse, hcov⟩ := hr (s, e) (List.mem_cons_self _ _)
    obtain ⟨bufs, hrun, hflat⟩ := grdRange_spec hpw s e hse hcov
    obtain ⟨more, hrun2, hflat2⟩ := ih (fun p hp => hr p (List.mem_cons_of_mem _ hp))
    refine ⟨bufs ++ more, ?_, ?_⟩
    · simp only [GetRangeData]
      rw [hrun, hrun2]
    · rw [List.flatten_append, hflat, hflat2, List.map_cons, List.flatten_cons]

/-- A block of the care set of a parsed image, addressed through a
requested interval, is covered by the descriptors.  (Bridge between the
care-set hypothesis of the claims and the coverage hypothesis of the
extractor lemmas.) -/
theorem care_coverage {f : List Nat} {img : SparseImage}
    (hparse : parseSparseImage f = .ok img) {s e : Nat}
    (hsub : Finset.Ico s e ⊆ careFinset img) :
    ∀ b, s ≤ b → b < e → b ∈ unionChunks img.offset_map := by
  intro b hb1 hb2
  have := hsub (Finset.mem_Ico.mpr ⟨hb1, hb2⟩)
  rwa [parse_care_set hparse] at this

/-- C1: for a RangeSet of disjoint ascending half-open block intervals
that is a subset of the care range set of a parsed image, the
concatenation of the byte buffers produced by `_GetRangeData` (returned
by `ReadRangeSet`) equals exactly the decoded content of the requested
blocks in range order — for each block, `block_size` bytes of the file
at `source_offset` plus the block's offset within a raw chunk, or the
4-byte fill pattern replicated across the block for a fill chunk
(`decodeBlock`); an interval spanning several chunks contributes each
chunk's bytes in turn, only the first read from a partial offset. -/
theorem c1_read_range_set_decodes (f : List Nat) (img : SparseImage)
    (ranges : List (Nat × Nat))
    (hparse : parseSparseImage f = .ok img)
    (_hdiv : 4 ∣ img.blocksize)
    (_hord : List.Chain' (fun p q => p.2 ≤ q.1) ranges)
    (hr : ∀ p ∈ ranges, p.1 < p.2 ∧ Finset.Ico p.1 p.2 ⊆ careFinset img) :
    ∃ bufs, ReadRangeSet img f ranges = some bufs ∧
      bufs.flatten = (ranges.map (fun p =>
        ((List.range' p.1 (p.2 - p.1)).map (decodeBlock img f)).flatten)).flatten := by
  exact GetRangeData_spec (parse_pairwise hparse) ranges
    (fun p hp => ⟨(hr p hp).1, care_coverage hparse (hr p hp).2⟩)

/-- C7: for every requested interval `[s, e)` inside the care range set
of a parsed image, `bisect_right(offset_index, s) - 1` is a valid
(non-negative) index whose descriptor contains `s`, and the whole of
`_GetRangeData` performs no out-of-range list access (it returns a
value rather than an `IndexError`). -/
theorem c7_bisect_safe (f : List Nat) (img : SparseImage)
    (ranges : List (Nat × Nat))
    (hparse : parseSparseImage f = .ok img)
    (hr : ∀ p ∈ ranges, p.1 < p.2 ∧ Finset.Ico p.1 p.2 ⊆ careFinset img) :
    (∀ p ∈ ranges, 1 ≤ bisectRight (offsetIndex img) p.1 ∧
      ∃ c, pyIdx img.offset_map (((bisectRight (offsetIndex img) p.1 : Nat) : Int) - 1) = some c ∧
        c.start ≤ p.1 ∧ p.1 < c.start + c.count) ∧
    (GetRangeData img f ranges).isSome := by
  have hpw := parse_pairwise hparse
  constructor
  · intro p hp
    obtain ⟨hse, hsub⟩ := hr p hp
    have hcov := care_coverage hparse hsub
    obtain ⟨k, hk, hk1, hk2⟩ := exists_containing (hcov p.1 le_rfl hse)
    have hbis : bisectRight (offsetIndex img) p.1 = k + 1 :=
      bisectRight_containing hpw hk hk1 hk2
    refine ⟨by omega, img.offset_map[k], ?_, hk1, hk2⟩
    rw [hbis]
    unfold pyIdx
    rw [if_pos (by omega)]
    rw [show (((k + 1 : Nat) : Int) - 1).toNat = k by omega]
    exact List.getElem?_eq_getElem hk
  · obtain ⟨bufs, hrun, _⟩ := GetRangeData_spec hpw ranges
      (fun p hp => ⟨(hr p hp).1, care_coverage hparse (hr p hp).2⟩)
    rw [hrun]
    rfl

/-- A repeated byte pattern has length `n` times the pattern length. -/
theorem bytesRepeat_length (b : List Nat) (n : Nat) :
    (bytesRepeat b n).length = n * b.length := by
  unfold bytesRepeat
  rw [List.length_flatten, List.map_replicate, List.sum_replicate, smul_eq_mul]

/-- C10: for a fill-chunk segment of `this_read = e - s` blocks,
`_GetRangeData` emits exactly `this_read * (4 * (block_size >> 2))`
bytes (the 4-byte pattern repeated `this_read * (block_size >> 2)`
times), and this equals the `this_read * block_size` bytes those blocks
contain if and only if `block_size` is a multiple of 4 — so for a block
size not divisible by 4, construction succeeds but a fill read silently
emits fewer bytes than the requested blocks contain. -/
theorem c10_fill_short_read (f : List Nat) (img : SparseImage) (s e k : Nat)
    (hparse : parseSparseImage f = .ok img)
    (hk : k < img.offset_map.length)
    (hfill : img.offset_map[k].filepos = none)
    (hpat : (img.offset_map[k].fill.getD []).length = 4)
    (hs : img.offset_map[k].start ≤ s) (hse : s < e)
    (he : e ≤ img.offset_map[k].start + img.offset_map[k].count) :
    ∃ bufs, grdRange img f s e = some bufs ∧
      bufs.flatten.length = (e - s) * (4 * (img.blocksize >>> 2)) ∧
      (bufs.flatten.length = (e - s) * img.blocksize ↔ 4 ∣ img.blocksize) := by
  have hpw := parse_pairwise hparse
  have hcov : ∀ b, s ≤ b → b < e → b ∈ unionChunks img.offset_map := by
    intro b hb1 hb2
    exact mem_unionChunks.mpr ⟨img.offset_map[k], List.getElem_mem hk, by omega, by omega⟩
  obtain ⟨bufs, hrun, hflat⟩ := @grdRange_spec img f hpw s e hse hcov
  have hdiv4 : img.blocksize >>> 2 = img.blocksize / 4 := by
    rw [Nat.shiftRight_eq_div_pow]
  have hlen : bufs.flatten.length = (e - s) * (4 * (img.blocksize >>> 2)) := by
    rw [hflat, List.length_flatten, List.map_map]
    have hcongr : (List.range' s (e - s)).map (List.length ∘ decodeBlock img f) =
        (List.range' s (e - s)).map (fun _ => 4 * (img.blocksize >>> 2)) := by
      apply List.map_congr_left
      intro b hb
      have hbmem := List.mem_range'_1.mp hb
      have hdec := @decodeBlock_eq img f b k hpw hk (by omega) (by omega)
      rw [hfill] at hdec
      dsimp only at hdec
      simp only [Function.comp_apply]
      rw [hdec, bytesRepeat_length, hpat, hdiv4]
      ring
    rw [hcongr, List.map_const', List.sum_replicate, smul_eq_mul, List.length_range']
  refine ⟨bufs, hrun, hlen, ?_⟩
  rw [hlen]
  constructor
  · intro hb
    have hmul : 4 * (img.blocksize >>> 2) = img.blocksize :=
      Nat.eq_of_mul_eq_mul_left (by omega) hb
    exact ⟨img.blocksize >>> 2, hmul.symm⟩
  · intro hdvd
    have : 4 * (img.blocksize / 4) = img.blocksize := Nat.mul_div_cancel' hdvd
    rw [hdiv4, this]

/-- Witness for C1: the concrete container `fileA`, requesting its full
care set `[0, 2)`, satisfies the hypotheses and the conclusion. -/
theorem c1_read_range_set_decodes_witness :
    parseSparseImage fileA = .ok imgA ∧
    4 ∣ imgA.blocksize ∧
    List.Chain' (fun p q => p.2 ≤ q.1) [((0 : Nat), (2 : Nat))] ∧
    (∀ p ∈ [((0 : Nat), (2 : Nat))], p.1 < p.2 ∧ Finset.Ico p.1 p.2 ⊆ careFinset imgA) ∧
    (∃ bufs, ReadRangeSet imgA fileA [(0, 2)] = some bufs ∧
      bufs.flatten = ([((0 : Nat), (2 : Nat))].map (fun p =>
        ((List.range' p.1 (p.2 - p.1)).map (decodeBlock imgA fileA)).flatten)).flatten) :=
  ⟨rfl, by decide, List.chain'_singleton _, by decide,
    c1_read_range_set_decodes fileA imgA [(0, 2)] rfl (by decide)
      (List.chain'_singleton _) (by decide)⟩

/-- Witness for C7 at the concrete container `fileA`. -/
theorem c7_bisect_safe_witness :
    parseSparseImage fileA = .ok imgA ∧
    (∀ p ∈ [((0 : Nat), (2 : Nat))], p.1 < p.2 ∧ Finset.Ico p.1 p.2 ⊆ careFinset imgA) ∧
    ((∀ p ∈ [((0 : Nat), (2 : Nat))], 1 ≤ bisectRight (offsetIndex imgA) p.1 ∧
      ∃ c, pyIdx imgA.offset_map (((bisectRight (offsetIndex imgA) p.1 : Nat) : Int) - 1) = some c ∧
        c.start ≤ p.1 ∧ p.1 < c.start + c.count) ∧
    (GetRangeData imgA fileA [(0, 2)]).isSome) :=
  ⟨rfl, by decide, c7_bisect_safe fileA imgA [(0, 2)] rfl (by decide)⟩

/-- Witness for C10: `fileB` has block size 6, not a multiple of 4; it
parses successfully and a fill read of its two blocks emits 8 bytes
instead of 12. -/
theorem c10_fill_short_read_witness :
    parseSparseImage fileB = .ok imgB ∧
    ¬ 4 ∣ imgB.blocksize ∧
    (∃ bufs, grdRange imgB fileB 0 2 = some bufs ∧
      bufs.flatten.length = (2 - 0) * (4 * (imgB.blocksize >>> 2)) ∧
      (bufs.flatten.length = (2 - 0) * imgB.blocksize ↔ 4 ∣ imgB.blocksize)) :=
  ⟨rfl, by decide,
    c10_fill_short_read fileB imgB 0 2 0 rfl (by decide) (by decide) (by decide)
      (by decide) (by decide) (by decide)⟩

/-- C2: after a successful construction, the care range set equals
exactly the union of the block intervals `[cursor, cursor+count)` of
all raw (0xCAC1) and fill (0xCAC2) chunks of the chunk table, contains
no block of any don't-care (0xCAC3) chunk, and the accumulated interval
pairs are in ascending, non-overlapping order. -/
theorem c2_care_map_exact (f : List Nat) (img : SparseImage)
    (hparse : parseSparseImage f = .ok img) :
    ∃ hdr tbl, readExact f 0 28 = some hdr ∧
      chunkTable f img.blocksize (u32le ((hdr.drop 20).take 4)) 28 0 = some tbl ∧
      careFinset img = unionPairs ((tbl.filter
        (fun r => decide (r.ctype = 0xCAC1) || decide (r.ctype = 0xCAC2))).map
        (fun r => (r.start, r.start + r.count))) ∧
      (∀ r ∈ tbl, r.ctype = 0xCAC3 →
        ∀ b, r.start ≤ b → b < r.start + r.count → b ∉ careFinset img) ∧
      (∀ p ∈ img.care_pairs, p.1 ≤ p.2) ∧
      List.Chain' (fun p q : Nat × Nat => p.2 ≤ q.1) img.care_pairs := by
  obtain ⟨hdr, hre, hbs, htot, hpc⟩ := parseSparseImage_chunks hparse
  obtain ⟨tbl, htbl, hcare, hcpos, hrpos, hchain, hfil, hdc, htys⟩ :=
    parseChunks_spec f img.blocksize _ _ _ _ _ hpc
  have hfeq : tbl.filter (fun r => decide (r.ctype ≠ 0xCAC3)) =
      tbl.filter (fun r => decide (r.ctype = 0xCAC1) || decide (r.ctype = 0xCAC2)) := by
    apply List.filter_congr
    intro r hr
    rcases htys r hr with h | h | h <;> simp [h]
  have hmapeq : img.offset_map.map (fun c => (c.start, c.start + c.count)) =
      (tbl.filter (fun r => decide (r.ctype = 0xCAC1) || decide (r.ctype = 0xCAC2))).map
        (fun r => (r.start, r.start + r.count)) := by
    have h1 := congrArg (List.map (fun p : Nat × Nat => (p.1, p.1 + p.2))) hfil
    rw [List.map_map, List.map_map] at h1
    rw [← hfeq]
    exact h1
  refine ⟨hdr, tbl, hre, htbl, ?_, ?_, ?_, ?_⟩
  · rw [parse_care_set hparse, ← unionPairs_map_chunks, hmapeq]
  · intro r hr hty b hb1 hb2 hmem
    rw [parse_care_set hparse] at hmem
    obtain ⟨c, hc, hcb1, hcb2⟩ := mem_unionChunks.mp hmem
    rcases hdc r hr hty c hc with h | h <;> omega
  · intro p hp
    rw [hcare] at hp
    obtain ⟨c, _, rfl⟩ := List.mem_map.mp hp
    exact Nat.le_add_right _ _
  · rw [hcare, List.chain'_map]
    exact hchain

/-- Witness for C2 at the concrete container `fileA`. -/
theorem c2_care_map_exact_witness :
    parseSparseImage fileA = .ok imgA ∧
    (∃ hdr tbl, readExact fileA 0 28 = some hdr ∧
      chunkTable fileA imgA.blocksize (u32le ((hdr.drop 20).take 4)) 28 0 = some tbl ∧
      careFinset imgA = unionPairs ((tbl.filter
        (fun r => decide (r.ctype = 0xCAC1) || decide (r.ctype = 0xCAC2))).map
        (fun r => (r.start, r.start + r.count))) ∧
      (∀ r ∈ tbl, r.ctype = 0xCAC3 →
        ∀ b, r.start ≤ b → b < r.start + r.count → b ∉ careFinset imgA) ∧
      (∀ p ∈ imgA.care_pairs, p.1 ≤ p.2) ∧
      List.Chain' (fun p q : Nat × Nat => p.2 ≤ q.1) imgA.care_pairs) :=
  ⟨rfl, c2_care_map_exact fileA imgA rfl⟩

/-- C9 (amended): every chunk descriptor of a successful parse carries
the chunk's declared block count — which the parser does not require to
be positive — and the descriptors are ordered by non-decreasing start
block with non-overlapping ranges (`start + count ≤ next.start`); the
original `block_count > 0` and strict ascent fail for zero-block chunks. -/
theorem c9_descriptor_order (f : List Nat) (img : SparseImage)
    (hparse : parseSparseImage f = .ok img) :
    List.Chain' (fun a b => a.start + a.count ≤ b.start) img.offset_map := by
  obtain ⟨hdr, _, _, _, hpc⟩ := parseSparseImage_chunks hparse
  obtain ⟨tbl, _, _, _, _, hchain, _⟩ := parseChunks_spec f img.blocksize _ _ _ _ _ hpc
  exact hchain

/-- Witness for C9 (amended) at the concrete container `fileA`. -/
theorem c9_descriptor_order_witness :
    parseSparseImage fileA = .ok imgA ∧
    List.Chain' (fun a b => a.start + a.count ≤ b.start) imgA.offset_map :=
  ⟨rfl, c9_descriptor_order fileA imgA rfl⟩

/-- C9 counterexample: `fileZeroCount` parses successfully, yet its
single descriptor has `block_count = 0` (and so not `block_count > 0`). -/
theorem c9_zero_count_counterexample :
    (parseSparseImage fileZeroCount).map (fun img => img.offset_map.map (·.count)) =
      .ok [0] := rfl

/-- The chunk loop succeeds exactly on valid chunk tables. -/
theorem parseChunks_isOk (f : List Nat) (blkSz : Nat) :
    ∀ (n fpos pos : Nat),
      (parseChunks f blkSz n fpos pos).isOk = chunksValid f blkSz n fpos := by
  intro n
  induction n with
  | zero => intro fpos pos; rfl
  | succ n ih =>
    intro fpos pos
    simp only [parseChunks, chunksValid]
    cases hre : readExact f fpos 12 with
    | none => rfl
    | some hdr =>
      simp only
      by_cases hty1 : u16le (hdr.take 2) = 0xCAC1
      · rw [if_pos hty1, if_pos hty1]
        by_cases hsz : ((u32le ((hdr.drop 8).take 4) : Int) - 12) =
            ((u32le ((hdr.drop 4).take 4) * blkSz : Nat) : Int)
        · rw [if_neg (by simp [hsz])]
          rw [show (decide (((u32le ((hdr.drop 8).take 4) : Int) - 12) =
            ((u32le ((hdr.drop 4).take 4) * blkSz : Nat) : Int))) = true by simp [hsz],
            Bool.true_and]
          rw [← ih (fpos + 12 + ((u32le ((hdr.drop 8).take 4) : Int) - 12).toNat)
            (pos + u32le ((hdr.drop 4).take 4))]
          cases parseChunks f blkSz n
              (fpos + 12 + ((u32le ((hdr.drop 8).take 4) : Int) - 12).toNat)
              (pos + u32le ((hdr.drop 4).take 4)) with
          | error e => rfl
          | ok res => obtain ⟨care, chunks⟩ := res; rfl
        · rw [if_pos (by simpa using hsz)]
          push_cast at hsz
          simp [Except.isOk, Except.toBool, hsz]
      · rw [if_neg hty1, if_neg hty1]
        by_cases hty2 : u16le (hdr.take 2) = 0xCAC2
        · rw [if_pos hty2, if_pos hty2]
          rw [← ih (fpos + 12 + (fread f (fpos + 12) 4).length)
            (pos + u32le ((hdr.drop 4).take 4))]
          cases parseChunks f blkSz n (fpos + 12 + (fread f (fpos + 12) 4).length)
              (pos + u32le ((hdr.drop 4).take 4)) with
          | error e => rfl
          | ok res => obtain ⟨care, chunks⟩ := res; rfl
        · rw [if_neg hty2, if_neg hty2]
          by_cases hty3 : u16le (hdr.take 2) = 0xCAC3
          · rw [if_pos hty3, if_pos hty3]
            by_cases hdz : ((u32le ((hdr.drop 8).take 4) : Int) - 12) = 0
            · rw [if_neg (by simp [hdz])]
              rw [show (decide (((u32le ((hdr.drop 8).take 4) : Int) - 12) = 0)) = true
                by simp [hdz], Bool.true_and]
              exact ih (fpos + 12) (pos + u32le ((hdr.drop 4).take 4))
            · rw [if_pos (by simpa using hdz)]
              simp [Except.isOk, Except.toBool, hdz]
          · rw [if_neg hty3, if_neg hty3]
            by_cases hty4 : u16le (hdr.take 2) = 0xCAC4
            · rw [if_pos hty4]; rfl
            · rw [if_neg hty4]; rfl

/-- The chunk loop only raises its own error kinds, with the carried
actual values violating the corresponding check. -/
theorem parseChunks_error_shape (f : List Nat) (blkSz : Nat) :
    ∀ (n fpos pos : Nat) (e : PError),
      parseChunks f blkSz n fpos pos = .error e →
      e = .structError ∨ (∃ d ex, e = .rawSizeMismatch d ex ∧ d ≠ ex) ∨
      (∃ d, e = .dontCareNonzero d ∧ d ≠ 0) ∨ e = .crcUnsupported ∨
      (∃ t, e = .unknownChunk t) := by
  intro n
  induction n with
  | zero =>
    intro fpos pos e h
    simp [parseChunks] at h
  | succ n ih =>
    intro fpos pos e h
    simp only [parseChunks] at h
    cases hre : readExact f fpos 12 with
    | none =>
      rw [hre] at h
      cases h
      exact Or.inl rfl
    | some hdr =>
      rw [hre] at h
      simp only at h
      by_cases hty1 : u16le (hdr.take 2) = 0xCAC1
      · rw [if_pos hty1] at h
        by_cases hsz : ((u32le ((hdr.drop 8).take 4) : Int) - 12) ≠
            ((u32le ((hdr.drop 4).take 4) * blkSz : Nat) : Int)
        · rw [if_pos hsz] at h
          cases h
          exact Or.inr (Or.inl ⟨_, _, rfl, hsz⟩)
        · rw [if_neg hsz] at h
          cases hrec : parseChunks f blkSz n
              (fpos + 12 + ((u32le ((hdr.drop 8).take 4) : Int) - 12).toNat)
              (pos + u32le ((hdr.drop 4).take 4)) with
          | error e2 =>
            rw [hrec] at h
            cases h
            exact ih _ _ _ hrec
          | ok res =>
            obtain ⟨care, chunks⟩ := res
            rw [hrec] at h
            cases h
      · rw [if_neg hty1] at h
        by_cases hty2 : u16le (hdr.take 2) = 0xCAC2
        · rw [if_pos hty2] at h
          cases hrec : parseChunks f blkSz n (fpos + 12 + (fread f (fpos + 12) 4).length)
              (pos + u32le ((hdr.drop 4).take 4)) with
          | error e2 =>
            rw [hrec] at h
            cases h
            exact ih _ _ _ hrec
          | ok res =>
            obtain ⟨care, chunks⟩ := res
            rw [hrec] at h
            cases h
        · rw [if_neg hty2] at h
          by_cases hty3 : u16le (hdr.take 2) = 0xCAC3
          · rw [if_pos hty3] at h
            by_cases hdz : ((u32le ((hdr.drop 8).take 4) : Int) - 12) ≠ 0
            · rw [if_pos hdz] at h
              cases h
              exact Or.inr (Or.inr (Or.inl ⟨_, rfl, hdz⟩))
            · rw [if_neg hdz] at h
              exact ih _ _ _ h
          · rw [if_neg hty3] at h
            by_cases hty4 : u16le (hdr.take 2) = 0xCAC4
            · rw [if_pos hty4] at h
              cases h
              exact Or.inr (Or.inr (Or.inr (Or.inl rfl)))
            · rw [if_neg hty4] at h
              cases h
              exact Or.inr (Or.inr (Or.inr (Or.inr ⟨_, rfl⟩)))

/-- C3: construction raises a format error if and only if the input is
structurally invalid, with a distinct failure for each enumerated
condition (bad magic, bad version, bad file-header size, bad
chunk-header size, raw-size mismatch, non-zero don't-care payload, CRC
chunk, unknown chunk type), each reporting the offending actual value;
a failed parse yields no image and hence no chunk index (the result is
an `Except.error`). -/
theorem c3_format_error_iff (f : List Nat) :
    ((parseSparseImage f).isOk = sparseValid f) ∧
    (∀ m, parseSparseImage f = .error (.badMagic m) →
      (∃ hdr, readExact f 0 28 = some hdr ∧ m = u32le (hdr.take 4)) ∧ m ≠ 0xED26FF3A) ∧
    (∀ mj mn, parseSparseImage f = .error (.badVersion mj mn) →
      (∃ hdr, readExact f 0 28 = some hdr ∧ mj = u16le ((hdr.drop 4).take 2) ∧
        mn = u16le ((hdr.drop 6).take 2)) ∧ (mj ≠ 1 ∨ mn ≠ 0)) ∧
    (∀ v, parseSparseImage f = .error (.badFileHdrSz v) →
      (∃ hdr, readExact f 0 28 = some hdr ∧ v = u16le ((hdr.drop 8).take 2)) ∧ v ≠ 28) ∧
    (∀ v, parseSparseImage f = .error (.badChunkHdrSz v) →
      (∃ hdr, readExact f 0 28 = some hdr ∧ v = u16le ((hdr.drop 10).take 2)) ∧ v ≠ 12) ∧
    (∀ d ex, parseSparseImage f = .error (.rawSizeMismatch d ex) → d ≠ ex) ∧
    (∀ d, parseSparseImage f = .error (.dontCareNonzero d) → d ≠ 0) := by
  cases hre : readExact f 0 28 with
  | none =>
    have hp : parseSparseImage f = .error .structError := by
      simp only [parseSparseImage]
      rw [hre]
    have hsv : sparseValid f = false := by
      simp only [sparseValid]
      rw [hre]
    rw [hp, hsv]
    refine ⟨rfl, ?_, ?_, ?_, ?_, ?_, ?_⟩ <;> intros <;> simp_all
  | some hdr =>
    have hp : parseSparseImage f =
        (if u32le (hdr.take 4) ≠ 0xED26FF3A then .error (.badMagic (u32le (hdr.take 4)))
        else if u16le ((hdr.drop 4).take 2) ≠ 1 ∨ u16le ((hdr.drop 6).take 2) ≠ 0 then
          .error (.badVersion (u16le ((hdr.drop 4).take 2)) (u16le ((hdr.drop 6).take 2)))
        else if u16le ((hdr.drop 8).take 2) ≠ 28 then
          .error (.badFileHdrSz (u16le ((hdr.drop 8).take 2)))
        else if u16le ((hdr.drop 10).take 2) ≠ 12 then
          .error (.badChunkHdrSz (u16le ((hdr.drop 10).take 2)))
        else
          match parseChunks f (u32le ((hdr.drop 12).take 4))
              (u32le ((hdr.drop 20).take 4)) 28 0 with
          | .error e => .error e
          | .ok (care, chunks) =>
            .ok ⟨u32le ((hdr.drop 12).take 4), u32le ((hdr.drop 16).take 4), care, chunks⟩) := by
      simp only [parseSparseImage]
      rw [hre]
    have hsv : sparseValid f =
        (decide (u32le (hdr.take 4) = 0xED26FF3A) &&
         decide (u16le ((hdr.drop 4).take 2) = 1) &&
         decide (u16le ((hdr.drop 6).take 2) = 0) &&
         decide (u16le ((hdr.drop 8).take 2) = 28) &&
         decide (u16le ((hdr.drop 10).take 2) = 12) &&
         chunksValid f (u32le ((hdr.drop 12).take 4)) (u32le ((hdr.drop 20).take 4)) 28) := by
      simp only [sparseValid]
      rw [hre]
    rw [hp, hsv]
    by_cases hmagic : u32le (hdr.take 4) = 0xED26FF3A
    · rw [if_neg (by simpa using hmagic)]
      by_cases hver : u16le ((hdr.drop 4).take 2) ≠ 1 ∨ u16le ((hdr.drop 6).take 2) ≠ 0
      · rw [if_pos hver]
        refine ⟨by simp [Except.isOk, Except.toBool, hmagic]; omega, ?_, ?_, ?_, ?_, ?_, ?_⟩
        · intro m h; simp at h
        · intro mj mn h
          cases h
          exact ⟨⟨hdr, rfl, rfl, rfl⟩, by omega⟩
        · intro v h; simp at h
        · intro v h; simp at h
        · intro d ex h; simp at h
        · intro d h; simp at h
      · rw [if_neg hver]
        have hver1 : u16le ((hdr.drop 4).take 2) = 1 := by omega
        have hver2 : u16le ((hdr.drop 6).take 2) = 0 := by omega
        by_cases hfh : u16le ((hdr.drop 8).take 2) = 28
        · rw [if_neg (by simpa using hfh)]
          by_cases hch : u16le ((hdr.drop 10).take 2) = 12
          · rw [if_neg (by simpa using hch)]
            have hok := parseChunks_isOk f (u32le ((hdr.drop 12).take 4))
              (u32le ((hdr.drop 20).take 4)) 28 0
            refine ⟨?_, ?_, ?_, ?_, ?_, ?_, ?_⟩
            · rw [show (decide (u32le (hdr.take 4) = 0xED26FF3A) &&
                  decide (u16le ((hdr.drop 4).take 2) = 1) &&
                  decide (u16le ((hdr.drop 6).take 2) = 0) &&
                  decide (u16le ((hdr.drop 8).take 2) = 28) &&
                  decide (u16le ((hdr.drop 10).take 2) = 12) &&
                  chunksValid f (u32le ((hdr.drop 12).take 4))
                    (u32le ((hdr.drop 20).take 4)) 28) =
                  chunksValid f (u32le ((hdr.drop 12).take 4))
                    (u32le ((hdr.drop 20).take 4)) 28
                by simp [hmagic, hver1, hver2, hfh, hch]]
              rw [← hok]
              cases parseChunks f (u32le ((hdr.drop 12).take 4))
                  (u32le ((hdr.drop 20).take 4)) 28 0 with
              | error e => rfl
              | ok res => obtain ⟨care, chunks⟩ := res; rfl
            · intro m h
              cases hrec : parseChunks f (u32le ((hdr.drop 12).take 4))
                  (u32le ((hdr.drop 20).take 4)) 28 0 with
              | error e =>
                rw [hrec] at h
                cases h
                rcases parseChunks_error_shape f _ _ _ _ _ hrec with
                  h' | ⟨d, ex, h', _⟩ | ⟨d, h', _⟩ | h' | ⟨t, h'⟩ <;> simp at h'
              | ok res =>
                obtain ⟨care, chunks⟩ := res
                rw [hrec] at h
                cases h
            · intro mj mn h
              cases hrec : parseChunks f (u32le ((hdr.drop 12).take 4))
                  (u32le ((hdr.drop 20).take 4)) 28 0 with
              | error e =>
                rw [hrec] at h
                cases h
                rcases parseChunks_error_shape f _ _ _ _ _ hrec with
                  h' | ⟨d, ex, h', _⟩ | ⟨d, h', _⟩ | h' | ⟨t, h'⟩ <;> simp at h'
              | ok res =>
                obtain ⟨care, chunks⟩ := res
                rw [hrec] at h
                cases h
            · intro v h
              cases hrec : parseChunks f (u32le ((hdr.drop 12).take 4))
                  (u32le ((hdr.drop 20).take 4)) 28 0 with
              | error e =>
                rw [hrec] at h
                cases h
                rcases parseChunks_error_shape f _ _ _ _ _ hrec with
                  h' | ⟨d, ex, h', _⟩ | ⟨d, h', _⟩ | h' | ⟨t, h'⟩ <;> simp at h'
              | ok res =>
                obtain ⟨care, chunks⟩ := res
                rw [hrec] at h
                cases h
            · intro v h
              cases hrec : parseChunks f (u32le ((hdr.drop 12).take 4))
                  (u32le ((hdr.drop 20).take 4)) 28 0 with
              | error e =>
                rw [hrec] at h
                cases h
                rcases parseChunks_error_shape f _ _ _ _ _ hrec with
                  h' | ⟨d, ex, h', _⟩ | ⟨d, h', _⟩ | h' | ⟨t, h'⟩ <;> simp at h'
              | ok res =>
                obtain ⟨care, chunks⟩ := res
                rw [hrec] at h
                cases h
            · intro d ex h
              cases hrec : parseChunks f (u32le ((hdr.drop 12).take 4))
                  (u32le ((hdr.drop 20).take 4)) 28 0 with
              | error e =>
                rw [hrec] at h
                cases h
                rcases parseChunks_error_shape f _ _ _ _ _ hrec with
                  h' | ⟨d2, ex2, h', hne⟩ | ⟨d2, h', _⟩ | h' | ⟨t, h'⟩ <;> simp at h'
                obtain ⟨h1, h2⟩ := h'
                subst h1
                subst h2
                exact hne
              | ok res =>
                obtain ⟨care, chunks⟩ := res
                rw [hrec] at h
                cases h
            · intro d h
              cases hrec : parseChunks f (u32le ((hdr.drop 12).take 4))
                  (u32le ((hdr.drop 20).take 4)) 28 0 with
              | error e =>
                rw [hrec] at h
                cases h
                rcases parseChunks_error_shape f _ _ _ _ _ hrec with
                  h' | ⟨d2, ex2, h', _⟩ | ⟨d2, h', hne⟩ | h' | ⟨t, h'⟩ <;> simp at h'
                subst h'
                exact hne
              | ok res =>
                obtain ⟨care, chunks⟩ := res
                rw [hrec] at h
                cases h
          · rw [if_pos (by simpa using hch)]
            refine ⟨by simp [Except.isOk, Except.toBool, hch], ?_, ?_, ?_, ?_, ?_, ?_⟩
            · intro m h; simp at h
            · intro mj mn h; simp at h
            · intro v h; simp at h
            · intro v h
              cases h
              exact ⟨⟨hdr, rfl, rfl⟩, hch⟩
            · intro d ex h; simp at h
            · intro d h; simp at h
        · rw [if_pos (by simpa using hfh)]
          refine ⟨by simp [Except.isOk, Except.toBool, hfh], ?_, ?_, ?_, ?_, ?_, ?_⟩
          · intro m h; simp at h
          · intro mj mn h; simp at h
          · intro v h
            cases h
            exact ⟨⟨hdr, rfl, rfl⟩, hfh⟩
          · intro v h; simp at h
          · intro d ex h; simp at h
          · intro d h; simp at h
    · rw [if_pos (by simpa using hmagic)]
      refine ⟨by simp [Except.isOk, Except.toBool, hmagic], ?_, ?_, ?_, ?_, ?_, ?_⟩
      · intro m h
        cases h
        exact ⟨⟨hdr, rfl, rfl⟩, hmagic⟩
      · intro mj mn h; simp at h
      · intro v h; simp at h
      · intro v h; simp at h
      · intro d ex h; simp at h
      · intro d h; simp at h

/-! ## The block-map loader -/

/-- A successful line loop keeps all entries, and the claimed sets tile
the starting `remaining` set: they are pairwise disjoint, disjoint from
the final remainder, and together with it union back to the start. -/
theorem loadLines_ok :
    ∀ (lines : List (String × Finset Nat)) (remaining : Finset Nat)
      (out : List (String × Finset Nat)) (rem : Finset Nat),
      loadLines remaining lines = (out, rem, true) →
      out = lines ∧ rem ⊆ remaining ∧ (∀ x ∈ lines, x.2 ⊆ remaining) ∧
      (lines.map Prod.snd).foldr (· ∪ ·) rem = remaining ∧
      List.Pairwise (fun a b => Disjoint a b) (lines.map Prod.snd) ∧
      (∀ x ∈ lines, Disjoint x.2 rem) := by
  intro lines
  induction lines with
  | nil =>
    intro remaining out rem h
    simp only [loadLines] at h
    obtain ⟨rfl, rfl, -⟩ : out = [] ∧ rem = remaining ∧ True := by
      cases h; exact ⟨rfl, rfl, trivial⟩
    simp
  | cons x rest ih =>
    intro remaining out rem h
    obtain ⟨n, r⟩ := x
    simp only [loadLines] at h
    by_cases hcard : r.card = (r ∩ remaining).card
    · rw [if_pos hcard] at h
      have hsub : r ⊆ remaining := by
        have h1 : r ∩ remaining ⊆ r := Finset.inter_subset_left
        have h2 : r ∩ remaining = r :=
          Finset.eq_of_subset_of_card_le h1 (le_of_eq hcard)
        rw [← h2]
        exact Finset.inter_subset_right
      cases hrec : loadLines (remaining \ r) rest with
      | mk out2 p2 =>
        obtain ⟨rem2, ok2⟩ := p2
        rw [hrec] at h
        cases h
        obtain ⟨rfl, hremsub, hallsub, hunion, hpw, hdisj⟩ :=
          ih (remaining \ r) out2 rem2 hrec
        have hdisj_r : ∀ t : Finset Nat, t ⊆ remaining \ r → Disjoint r t := by
          intro t ht
          rw [Finset.disjoint_right]
          intro a hat har
          exact (Finset.mem_sdiff.mp (ht hat)).2 har
        refine ⟨rfl, le_trans hremsub (Finset.sdiff_subset), ?_, ?_, ?_, ?_⟩
        · intro y hy
          rcases List.mem_cons.mp hy with rfl | hy
          · exact hsub
          · exact le_trans (hallsub y hy) Finset.sdiff_subset
        · simp only [List.map_cons, List.foldr_cons]
          rw [hunion]
          exact Finset.union_sdiff_of_subset hsub
        · simp only [List.map_cons]
          rw [List.pairwise_cons]
          exact ⟨fun t ht => by
            obtain ⟨y, hy, rfl⟩ := List.mem_map.mp ht
            exact hdisj_r y.2 (hallsub y hy), hpw⟩
        · intro y hy
          rcases List.mem_cons.mp hy with rfl | hy
          · exact hdisj_r rem2 hremsub
          · exact hdisj y hy
    · rw [if_neg hcard] at h
      cases h

/-- A failed line loop leaves exactly a nonempty prefix of the lines —
those applied before the assertion fired, the offending line included. -/
theorem loadLines_fail :
    ∀ (lines : List (String × Finset Nat)) (remaining : Finset Nat)
      (out : List (String × Finset Nat)) (rem : Finset Nat),
      loadLines remaining lines = (out, rem, false) →
      out = lines.take out.length ∧ 0 < out.length ∧ out.length ≤ lines.length := by
  intro lines
  induction lines with
  | nil =>
    intro remaining out rem h
    simp only [loadLines] at h
    cases h
  | cons x rest ih =>
    intro remaining out rem h
    obtain ⟨n, r⟩ := x
    simp only [loadLines] at h
    by_cases hcard : r.card = (r ∩ remaining).card
    · rw [if_pos hcard] at h
      cases hrec : loadLines (remaining \ r) rest with
      | mk out2 p2 =>
        obtain ⟨rem2, ok2⟩ := p2
        rw [hrec] at h
        cases h
        obtain ⟨hpre, hpos, hle⟩ := ih (remaining \ r) out2 rem2 hrec
        refine ⟨?_, by simp, by simpa using hle⟩
        simp only [List.length_cons, List.take_succ_cons]
        rw [← hpre]
    · rw [if_neg hcard] at h
      cases h
      exact ⟨rfl, by simp, by simp⟩

theorem bytesRepeat_one (b : List Nat) : bytesRepeat b 1 = b := by
  simp [bytesRepeat]

/-- The classifier's per-block test agrees exactly with comparing the
decoded block content against the all-zero reference block — the fill
shortcut included. -/
theorem blockIsZero_spec {img : SparseImage} {f : List Nat}
    (hparse : parseSparseImage f = .ok img)
    (hbs : 0 < img.blocksize) (hdiv : 4 ∣ img.blocksize)
    (hfills : ∀ c ∈ img.offset_map, c.filepos = none → (c.fill.getD []).length = 4)
    {b : Nat} (hb : b ∈ careFinset img) :
    blockIsZero img f b =
      some (decide (decodeBlock img f b = List.replicate img.blocksize 0)) := by
  have hpw := parse_pairwise hparse
  rw [parse_care_set hparse] at hb
  obtain ⟨k, hk, hk1, hk2⟩ := exists_containing hb
  have hbis : bisectRight (offsetIndex img) b = k + 1 :=
    bisectRight_containing hpw hk hk1 hk2
  have hpy : pyIdx img.offset_map (((bisectRight (offsetIndex img) b : Nat) : Int) - 1) =
      some img.offset_map[k] := by
    rw [hbis]
    unfold pyIdx
    rw [if_pos (by omega)]
    rw [show (((k + 1 : Nat) : Int) - 1).toNat = k by omega]
    exact List.getElem?_eq_getElem hk
  have hdec := @decodeBlock_eq img f b k hpw hk hk1 hk2
  have hbs4 : 4 ≤ img.blocksize := Nat.le_of_dvd hbs hdiv
  unfold blockIsZero
  rw [hpy]
  dsimp only
  cases hfp : img.offset_map[k].filepos with
  | some p =>
    rw [hfp] at hdec
    dsimp only at hdec
    dsimp only
    have hposI : (p : Int) + ((b : Int) - (img.offset_map[k].start : Int)) *
        (img.blocksize : Int) =
        (((p + (b - img.offset_map[k].start) * img.blocksize : Nat)) : Int) := by
      rw [show (b : Int) - (img.offset_map[k].start : Int) =
          ((b - img.offset_map[k].start : Nat) : Int) by omega]
      push_cast
      ring
    rw [hposI, freadPy_natCast]
    dsimp only
    rw [hdec]
    by_cases hz : fread f (p + (b - img.offset_map[k].start) * img.blocksize)
        img.blocksize = List.replicate img.blocksize 0
    · simp [hz]
    · simp [hz]
  | none =>
    rw [hfp] at hdec
    dsimp only at hdec
    dsimp only
    have hfl := hfills img.offset_map[k] (List.getElem_mem hk) hfp
    have htake : (List.replicate img.blocksize (0 : Nat)).take 4 = List.replicate 4 0 := by
      rw [List.take_replicate, Nat.min_eq_left hbs4]
    rw [hdec, htake]
    by_cases hfz : img.offset_map[k].fill.getD [] = List.replicate 4 0
    · have hdecode : bytesRepeat (img.offset_map[k].fill.getD []) (img.blocksize / 4) =
          List.replicate img.blocksize 0 := by
        rw [hfz]
        unfold bytesRepeat
        rw [List.flatten_replicate_replicate]
        congr 1
        exact Nat.div_mul_cancel hdiv
      rw [hdecode]
      simp [hfz]
    · have hdecode : bytesRepeat (img.offset_map[k].fill.getD []) (img.blocksize / 4) ≠
          List.replicate img.blocksize 0 := by
        intro heq
        have hd1 : 1 ≤ img.blocksize / 4 := (Nat.one_le_div_iff (by norm_num)).mpr hbs4
        have hsplit : bytesRepeat (img.offset_map[k].fill.getD []) (img.blocksize / 4) =
            img.offset_map[k].fill.getD [] ++
              bytesRepeat (img.offset_map[k].fill.getD []) (img.blocksize / 4 - 1) := by
          have hone : img.blocksize / 4 = 1 + (img.blocksize / 4 - 1) := by omega
          nth_rewrite 1 [hone]
          rw [bytesRepeat_add, bytesRepeat_one]
        rw [hsplit] at heq
        have htk := congrArg (List.take 4) heq
        rw [List.take_left' hfl, htake] at htk
        exact hfz htk
      have hfz2 : ¬ img.offset_map[k].fill.getD [] = [0, 0, 0, 0] := by simpa using hfz
      simp [hfz2, hdecode]

/-- C5: an unclaimed block is placed in `__ZERO` if and only if its
decoded content is `block_size` zero bytes — whether it comes from a
raw chunk read from the file or from the all-zero 4-byte fill pattern —
and in `__NONZERO` otherwise; a non-zero fill pattern is classified
non-zero without reading any bytes, which is equivalent to expanding
and comparing. -/
theorem c5_zero_classification (f : List Nat) (img : SparseImage)
    (lines entries : List (String × Finset Nat)) (rem : Finset Nat)
    (hparse : parseSparseImage f = .ok img)
    (hbs : 0 < img.blocksize) (hdiv : 4 ∣ img.blocksize)
    (hfills : ∀ c ∈ img.offset_map, c.filepos = none → (c.fill.getD []).length = 4)
    (hll : loadLines (careFinset img) lines = (entries, rem, true)) :
    LoadFileBlockMap img f lines = .ok (entries ++
      [("__ZERO", rem.filter (fun b => decodeBlock img f b = List.replicate img.blocksize 0)),
       ("__NONZERO", rem.filter (fun b =>
         ¬ decodeBlock img f b = List.replicate img.blocksize 0))]) := by
  obtain ⟨-, hremsub, -, -, -, -⟩ := loadLines_ok lines (careFinset img) entries rem hll
  have hbz : ∀ b ∈ rem, blockIsZero img f b =
      some (decide (decodeBlock img f b = List.replicate img.blocksize 0)) :=
    fun b hb => blockIsZero_spec hparse hbs hdiv hfills (hremsub hb)
  unfold LoadFileBlockMap
  rw [hll]
  dsimp only
  rw [if_pos (fun b hb => by rw [hbz b hb]; rfl)]
  have hz : rem.filter (fun b => blockIsZero img f b = some true) =
      rem.filter (fun b => decodeBlock img f b = List.replicate img.blocksize 0) := by
    apply Finset.filter_congr
    intro b hb
    rw [hbz b hb]
    simp
  have hn : rem.filter (fun b => blockIsZero img f b ≠ some true) =
      rem.filter (fun b => ¬ decodeBlock img f b = List.replicate img.blocksize 0) := by
    apply Finset.filter_congr
    intro b hb
    rw [Ne, hbz b hb]
    simp
  rw [hz, hn]

/-- C4: after `LoadFileBlockMap` succeeds on a valid block map (unique
file names, none of them the reserved synthetic names), the file map
partitions the care range set: the union of every per-file set plus the
synthetic `__ZERO` and `__NONZERO` sets equals the care range set
exactly, all sets are pairwise disjoint, and the keys are unique. -/
theorem c4_file_map_partition (f : List Nat) (img : SparseImage)
    (lines out : List (String × Finset Nat))
    (_hparse : parseSparseImage f = .ok img)
    (hnames : (lines.map Prod.fst).Nodup)
    (hres : ∀ x ∈ lines, x.1 ≠ "__ZERO" ∧ x.1 ≠ "__NONZERO")
    (hload : LoadFileBlockMap img f lines = .ok out) :
    (out.map Prod.snd).foldr (· ∪ ·) ∅ = careFinset img ∧
    List.Pairwise (fun a b : Finset Nat => Disjoint a b) (out.map Prod.snd) ∧
    (out.map Prod.fst).Nodup := by
  unfold LoadFileBlockMap at hload
  cases hll : loadLines (careFinset img) lines with
  | mk entries p =>
    obtain ⟨rem, ok⟩ := p
    rw [hll] at hload
    cases ok with
    | false => cases hload
    | true =>
      dsimp only at hload
      by_cases hall : ∀ b ∈ rem, (blockIsZero img f b).isSome
      · rw [if_pos hall] at hload
        cases hload
        obtain ⟨hentries, hremsub, hsubs, hunion, hpw, hdisj⟩ :=
          loadLines_ok lines _ entries rem hll
        subst hentries
        have hzs_sub : rem.filter (fun b => blockIsZero img f b = some true) ⊆ rem :=
          Finset.filter_subset _ _
        have hns_sub : rem.filter (fun b => blockIsZero img f b ≠ some true) ⊆ rem :=
          Finset.filter_subset _ _
        have hzn : rem.filter (fun b => blockIsZero img f b = some true) ∪
            rem.filter (fun b => blockIsZero img f b ≠ some true) = rem :=
          Finset.filter_union_filter_neg_eq _ rem
        refine ⟨?_, ?_, ?_⟩
        · rw [List.map_append, List.foldr_append]
          simp only [List.map_cons, List.map_nil, List.foldr_cons, List.foldr_nil]
          rw [Finset.union_empty, hzn]
          exact hunion
        · rw [List.map_append, List.pairwise_append]
          refine ⟨hpw, ?_, ?_⟩
          · simp only [List.map_cons, List.map_nil]
            rw [List.pairwise_cons]
            refine ⟨?_, by simp⟩
            intro t ht
            simp only [List.map_cons, List.map_nil, List.mem_cons,
              List.not_mem_nil, or_false] at ht
            subst ht
            exact Finset.disjoint_filter_filter_neg rem rem _
          · intro a ha t ht
            obtain ⟨x, hx, rfl⟩ := List.mem_map.mp ha
            simp only [List.map_cons, List.map_nil, List.mem_cons,
              List.not_mem_nil, or_false] at ht
            rcases ht with rfl | rfl
            · exact Finset.disjoint_of_subset_right hzs_sub (hdisj x hx)
            · exact Finset.disjoint_of_subset_right hns_sub (hdisj x hx)
        · rw [List.map_append]
          apply List.Nodup.append hnames (by simp)
          rw [List.disjoint_left]
          intro a ha hmem
          obtain ⟨x, hx, rfl⟩ := List.mem_map.mp ha
          simp only [List.map_cons, List.map_nil, List.mem_cons,
            List.not_mem_nil, or_false] at hmem
          rcases hmem with h | h
          · exact (hres x hx).1 h
          · exact (hres x hx).2 h
      · rw [if_neg hall] at hload
        cases hload

/-- C6 (amended): when `LoadFileBlockMap` fails its containment
assertion, `self.file_map` — reassigned at entry — is left holding
exactly the entries for the prefix of lines processed up to and
including the offending line, with no `__ZERO`/`__NONZERO` entries; the
prior map is discarded, so the map is *not* unchanged. -/
theorem c6_partial_map_on_failure (st : ImgState) (f : List Nat)
    (lines out : List (String × Finset Nat))
    (hfail : LoadFileBlockMap st.img f lines = .assertFail out) :
    (LoadFileBlockMapS st f lines).1.file_map = out ∧
    (LoadFileBlockMapS st f lines).2 = false ∧
    (LoadFileBlockMapS st f lines).1.img = st.img ∧
    out = lines.take out.length ∧ 0 < out.length ∧ out.length ≤ lines.length := by
  have hs : LoadFileBlockMapS st f lines = ({ st with file_map := out }, false) := by
    unfold LoadFileBlockMapS
    rw [hfail]
  unfold LoadFileBlockMap at hfail
  cases hll : loadLines (careFinset st.img) lines with
  | mk entries p =>
    obtain ⟨rem, ok⟩ := p
    rw [hll] at hfail
    cases ok with
    | false =>
      dsimp only at hfail
      cases hfail
      obtain ⟨hpre, hpos, hle⟩ := loadLines_fail lines _ out rem hll
      rw [hs]
      exact ⟨rfl, rfl, rfl, hpre, hpos, hle⟩
    | true =>
      dsimp only at hfail
      by_cases hall : ∀ b ∈ rem, (blockIsZero st.img f b).isSome
      · rw [if_pos hall] at hfail
        cases hfail
      · rw [if_neg hall] at hfail
        cases hfail

/-- C6 counterexample: loading a block map whose single line lies
outside the care range set leaves the file map changed (holding the bad
entry), not in its prior undifferentiated state. -/
theorem c6_map_changed_counterexample :
    LoadFileBlockMap stA.img fileA [("badfile", {5})] = .assertFail [("badfile", {5})] ∧
    (LoadFileBlockMapS stA fileA [("badfile", {5})]).1.file_map ≠ stA.file_map := by
  refine ⟨by decide, by decide⟩

/-- Witness for C6 (amended) at the concrete bad block map. -/
theorem c6_partial_map_on_failure_witness :
    LoadFileBlockMap stA.img fileA [("badfile", {5})] = .assertFail [("badfile", {5})] ∧
    ((LoadFileBlockMapS stA fileA [("badfile", {5})]).1.file_map = [("badfile", {5})] ∧
     (LoadFileBlockMapS stA fileA [("badfile", {5})]).2 = false ∧
     (LoadFileBlockMapS stA fileA [("badfile", {5})]).1.img = stA.img ∧
     [(("badfile" : String), ({5} : Finset Nat))] =
       [(("badfile" : String), ({5} : Finset Nat))].take 1 ∧
     0 < [(("badfile" : String), ({5} : Finset Nat))].length ∧
     [(("badfile" : String), ({5} : Finset Nat))].length ≤ 1) := by
  have h := c6_partial_map_on_failure stA fileA [("badfile", {5})] [("badfile", {5})]
    (by decide)
  exact ⟨by decide, h.1, h.2.1, h.2.2.1, h.2.2.2.1, h.2.2.2.2⟩

/-- C8: `ResetFileMap` always sets the file map to the single
undifferentiated `__DATA` entry covering the care range set, leaves the
parsed image (chunk index, care set, block size, total blocks)
unchanged, is idempotent, and is a no-op on an already-undifferentiated
map. -/
theorem c8_reset_file_map (st : ImgState) :
    (ResetFileMap st).file_map = [("__DATA", careFinset st.img)] ∧
    (ResetFileMap st).img = st.img ∧
    ResetFileMap (ResetFileMap st) = ResetFileMap st ∧
    (st.file_map = [("__DATA", careFinset st.img)] → ResetFileMap st = st) := by
  refine ⟨rfl, rfl, rfl, ?_⟩
  intro h
  cases st with
  | mk img fm =>
    simp only [ResetFileMap]
    simp only at h
    rw [h]

/-- Witness for C8 at the concrete state `stA`, whose map is already
undifferentiated, so reset is a no-op there. -/
theorem c8_reset_file_map_witness :
    (ResetFileMap stA).file_map = [("__DATA", careFinset stA.img)] ∧
    ResetFileMap stA = stA :=
  ⟨(c8_reset_file_map stA).1, (c8_reset_file_map stA).2.2.2 rfl⟩

/-- Witness for C3: `fileA` is valid and parses; `fileBadMagic` fails
with the magic clause, reporting the decoded actual magic word. -/
theorem c3_format_error_iff_witness :
    (parseSparseImage fileA).isOk = sparseValid fileA ∧
    sparseValid fileA = true ∧
    parseSparseImage fileBadMagic = .error (.badMagic 0xED26FF00) ∧
    ((∃ hdr, readExact fileBadMagic 0 28 = some hdr ∧
        (0xED26FF00 : Nat) = u32le (hdr.take 4)) ∧ (0xED26FF00 : Nat) ≠ 0xED26FF3A) :=
  ⟨(c3_format_error_iff fileA).1, by decide, rfl,
    (c3_format_error_iff fileBadMagic).2.1 0xED26FF00 rfl⟩

/-- Witness for C4 at the concrete container `fileA` with the one-line
block map claiming block 0 for file `a`. -/
theorem c4_file_map_partition_witness :
    parseSparseImage fileA = .ok imgA ∧
    LoadFileBlockMap imgA fileA [("a", {0})] =
      .ok [("a", {0}), ("__ZERO", ∅), ("__NONZERO", {1})] ∧
    (([("a", ({0} : Finset Nat)), ("__ZERO", ∅), ("__NONZERO", {1})].map
        Prod.snd).foldr (· ∪ ·) ∅ = careFinset imgA ∧
      List.Pairwise (fun a b : Finset Nat => Disjoint a b)
        ([("a", ({0} : Finset Nat)), ("__ZERO", ∅), ("__NONZERO", {1})].map Prod.snd) ∧
      ([("a", ({0} : Finset Nat)), ("__ZERO", ∅), ("__NONZERO", {1})].map
        Prod.fst).Nodup) :=
  ⟨rfl, by decide,
    c4_file_map_partition fileA imgA [("a", {0})]
      [("a", {0}), ("__ZERO", ∅), ("__NONZERO", {1})] rfl (by decide) (by decide)
      (by decide)⟩

/-- Witness for C5 at the concrete container `fileA`: after claiming
block 0 for file `a`, the unclaimed fill block 1 (pattern 9,9,9,9) is
classified non-zero. -/
theorem c5_zero_classification_witness :
    parseSparseImage fileA = .ok imgA ∧
    0 < imgA.blocksize ∧ 4 ∣ imgA.blocksize ∧
    (∀ c ∈ imgA.offset_map, c.filepos = none → (c.fill.getD []).length = 4) ∧
    loadLines (careFinset imgA) [("a", {0})] = ([("a", {0})], {1}, true) ∧
    LoadFileBlockMap imgA fileA [("a", {0})] = .ok ([("a", {0})] ++
      [("__ZERO", ({1} : Finset Nat).filter
          (fun b => decodeBlock imgA fileA b = List.replicate imgA.blocksize 0)),
       ("__NONZERO", ({1} : Finset Nat).filter
          (fun b => ¬ decodeBlock imgA fileA b = List.replicate imgA.blocksize 0))]) :=
  ⟨rfl, by decide, by decide, by decide, by decide,
    c5_zero_classification fileA imgA [("a", {0})] [("a", {0})] {1} rfl
      (by decide) (by decide) (by decide) (by decide)⟩

end SparseImg
